import Mathlib

/-!
# Verification of the xo-cli core against its specification

Shallow embedding of the xo-cli command-line client (two source variants:
`index.js`, the simpler one, and the unnamed richer variant) together with
proofs about its parameter parser, session bootstrap, transfer dispatcher,
progress formatter and CLI dispatch.

JavaScript values that flow through the program (parameter values, RPC
results, JSON) are modelled by the mutual inductive type `JVal`; JS objects
are association lists in insertion order, JS arrays are `JArr` lists.
Machine I/O (file system stat, HTTP requests) is modelled by explicit
environments and action traces.
-/

namespace XoCli

mutual
/-- A JavaScript value as used by this program: `null`, booleans, numbers
(kept as their JSON lexeme, since no arithmetic is performed on them),
strings, arrays and objects. Arrays and objects are separate mutual
inductives so that structural recursion and induction stay simple. -/
inductive JVal : Type where
  | vnull : JVal
  | vbool : Bool → JVal
  | vnum : String → JVal
  | vstr : String → JVal
  | varr : JArr → JVal
  | vobj : JObj → JVal

inductive JArr : Type where
  | anil : JArr
  | acons : JVal → JArr → JArr

inductive JObj : Type where
  | onil : JObj
  | ocons : String → JVal → JObj → JObj
end

deriving instance DecidableEq for JVal
deriving instance DecidableEq for Except

/-- Length of a modelled JS array. -/
def JArr.length : JArr → Nat
  | .anil => 0
  | .acons _ t => t.length + 1

/-- Keys of a modelled JS object, in property-insertion order. -/
def JObj.keys : JObj → List String
  | .onil => []
  | .ocons k _ t => k :: t.keys

/-- Property read on a modelled JS object (first binding wins; objects
built by this development never hold duplicate keys). -/
def JObj.get : JObj → String → Option JVal
  | .onil, _ => none
  | .ocons k v t, key => if k = key then some v else t.get key

/-- JS property assignment `o[k] = v`: updates the value in place if the
key exists (keeping its original position) and appends otherwise. -/
def JObj.assign : JObj → String → JVal → JObj
  | .onil, k, v => .ocons k v .onil
  | .ocons k' v' t, k, v =>
    if k' = k then .ocons k' v t else .ocons k' v' (t.assign k v)

/-- Appending two modelled JS objects. -/
def JObj.append : JObj → JObj → JObj
  | .onil, o => o
  | .ocons k v t, o => .ocons k v (t.append o)

/-! ## JSON
Modelled from the spec: the richer source variant calls the JavaScript
builtins `JSON.parse` (strict JSON grammar: literals, strings with escape
sequences and no raw control characters, numbers, arrays, objects with
last-assignment-wins duplicate keys) and `JSON.stringify`. Numbers are kept
as their lexeme since the program never computes with them; `\uXXXX`
escapes decode through `Char.ofNat`, abstracting from UTF-16 surrogates. -/

/-- JSON insignificant whitespace. -/
def jsonWs (c : Char) : Bool :=
  c = ' ' || c = '\t' || c = '\n' || c = '\r'

/-- Drop leading JSON whitespace. -/
def skipWs (cs : List Char) : List Char :=
  cs.dropWhile jsonWs

/-- Value of a hexadecimal digit. -/
def hexVal (c : Char) : Option Nat :=
  if '0' ≤ c ∧ c ≤ '9' then some (c.toNat - 48)
  else if 'a' ≤ c ∧ c ≤ 'f' then some (c.toNat - 87)
  else if 'A' ≤ c ∧ c ≤ 'F' then some (c.toNat - 55)
  else none

/-- Parse the body of a JSON string (the opening quote already consumed),
returning the decoded characters and the input after the closing quote. -/
def parseStringBody : List Char → Option (List Char × List Char)
  | [] => none
  | c :: rest =>
    if c = '"' then some ([], rest)
    else if c = '\\' then
      match rest with
      | [] => none
      | e :: rest1 =>
        if e = '"' then (parseStringBody rest1).map fun p => ('"' :: p.1, p.2)
        else if e = '\\' then (parseStringBody rest1).map fun p => ('\\' :: p.1, p.2)
        else if e = '/' then (parseStringBody rest1).map fun p => ('/' :: p.1, p.2)
        else if e = 'b' then (parseStringBody rest1).map fun p => ('\x08' :: p.1, p.2)
        else if e = 'f' then (parseStringBody rest1).map fun p => ('\x0c' :: p.1, p.2)
        else if e = 'n' then (parseStringBody rest1).map fun p => ('\n' :: p.1, p.2)
        else if e = 'r' then (parseStringBody rest1).map fun p => ('\r' :: p.1, p.2)
        else if e = 't' then (parseStringBody rest1).map fun p => ('\t' :: p.1, p.2)
        else if e = 'u' then
          match rest1 with
          | h1 :: h2 :: h3 :: h4 :: rest2 =>
            match hexVal h1, hexVal h2, hexVal h3, hexVal h4 with
            | some a, some b, some c, some d =>
              (parseStringBody rest2).map fun p =>
                (Char.ofNat (((a * 16 + b) * 16 + c) * 16 + d) :: p.1, p.2)
            | _, _, _, _ => none
          | _ => none
        else none
    else if 32 ≤ c.toNat then (parseStringBody rest).map fun p => (c :: p.1, p.2)
    else none

/-- Split a leading run of decimal digits. -/
def takeDigits (cs : List Char) : List Char × List Char :=
  (cs.takeWhile Char.isDigit, cs.dropWhile Char.isDigit)

/-- Integer part of a JSON number: `0` or a nonzero digit followed by
digits. -/
def parseIntPart : List Char → Option (List Char × List Char)
  | [] => none
  | c :: rest =>
    if c = '0' then some (['0'], rest)
    else if c.isDigit then
      some (c :: (takeDigits rest).1, (takeDigits rest).2)
    else none

/-- Optional fraction part `.digits`; consumes nothing when absent. -/
def parseFracPart : List Char → List Char × List Char
  | [] => ([], [])
  | c :: rest =>
    if c = '.' then
      match rest with
      | [] => ([], c :: rest)
      | d :: _ =>
        if d.isDigit then ('.' :: (takeDigits rest).1, (takeDigits rest).2)
        else ([], c :: rest)
    else ([], c :: rest)

/-- Optional exponent part `[eE][+-]?digits`; consumes nothing when absent
or malformed (a malformed tail is then rejected by the caller). -/
def parseExpPart : List Char → List Char × List Char
  | [] => ([], [])
  | e :: rest =>
    if e = 'e' ∨ e = 'E' then
      match rest with
      | [] => ([], e :: rest)
      | s :: rest1 =>
        if s = '+' ∨ s = '-' then
          if (takeDigits rest1).1 = [] then ([], e :: s :: rest1)
          else (e :: s :: (takeDigits rest1).1, (takeDigits rest1).2)
        else
          if (takeDigits rest).1 = [] then ([], e :: rest)
          else (e :: (takeDigits rest).1, (takeDigits rest).2)
    else ([], e :: rest)

/-- Strip an optional leading minus sign. -/
def parseNeg (cs : List Char) : List Char × List Char :=
  match cs with
  | [] => ([], [])
  | c :: r => if c = '-' then (['-'], r) else ([], c :: r)

/-- Parse a JSON number, returning its lexeme and the rest of the input. -/
def parseNumber (cs : List Char) : Option (String × List Char) :=
  match parseIntPart (parseNeg cs).2 with
  | none => none
  | some q =>
    some (⟨(parseNeg cs).1 ++ q.1 ++ (parseFracPart q.2).1 ++
            (parseExpPart (parseFracPart q.2).2).1⟩,
          (parseExpPart (parseFracPart q.2).2).2)

mutual
/-- Fuel-indexed JSON value parser (the fuel only serves termination; the
top entry point supplies enough for any input). -/
def parseValue : Nat → List Char → Option (JVal × List Char)
  | 0, _ => none
  | f + 1, cs =>
    match skipWs cs with
    | [] => none
    | c :: r =>
      if c = 'n' then
        match r with
        | 'u' :: 'l' :: 'l' :: r1 => some (.vnull, r1)
        | _ => none
      else if c = 't' then
        match r with
        | 'r' :: 'u' :: 'e' :: r1 => some (.vbool true, r1)
        | _ => none
      else if c = 'f' then
        match r with
        | 'a' :: 'l' :: 's' :: 'e' :: r1 => some (.vbool false, r1)
        | _ => none
      else if c = '"' then
        (parseStringBody r).map fun p => (.vstr ⟨p.1⟩, p.2)
      else if c = '[' then
        match skipWs r with
        | [] => none
        | c1 :: r1 =>
          if c1 = ']' then some (.varr .anil, r1)
          else (parseElems f (c1 :: r1)).map fun p => (.varr p.1, p.2)
      else if c = '{' then
        match skipWs r with
        | [] => none
        | c1 :: r1 =>
          if c1 = '}' then some (.vobj .onil, r1)
          else (parseMembers f (c1 :: r1) .onil).map fun p => (.vobj p.1, p.2)
      else
        (parseNumber (c :: r)).map fun p => (.vnum p.1, p.2)

/-- Parse the elements of a non-empty JSON array up to the closing `]`. -/
def parseElems : Nat → List Char → Option (JArr × List Char)
  | 0, _ => none
  | f + 1, cs =>
    match parseValue f cs with
    | none => none
    | some (v, r) =>
      match skipWs r with
      | [] => none
      | c :: r1 =>
        if c = ',' then
          match parseElems f r1 with
          | some p => some (.acons v p.1, p.2)
          | none => none
        else if c = ']' then some (.acons v .anil, r1)
        else none

/-- Parse the members of a non-empty JSON object up to the closing `}`,
assigning each binding into the accumulator like the JS runtime does
(so a duplicated key keeps its first position and its last value). -/
def parseMembers : Nat → List Char → JObj → Option (JObj × List Char)
  | 0, _, _ => none
  | f + 1, cs, acc =>
    match skipWs cs with
    | [] => none
    | c :: r =>
      if c = '"' then
        match parseStringBody r with
        | none => none
        | some kp =>
          match skipWs kp.2 with
          | [] => none
          | c1 :: r2 =>
            if c1 = ':' then
              match parseValue f r2 with
              | none => none
              | some (v, r3) =>
                match skipWs r3 with
                | [] => none
                | c2 :: r4 =>
                  if c2 = ',' then parseMembers f r4 (acc.assign ⟨kp.1⟩ v)
                  else if c2 = '}' then some (acc.assign ⟨kp.1⟩ v, r4)
                  else none
            else none
      else none
end

/-- Modelled from the spec: the JavaScript builtin `JSON.parse`, returning
`none` where it would throw a `SyntaxError`. -/
def jsonParse (s : String) : Option JVal :=
  match parseValue (2 * s.data.length + 2) s.data with
  | some (v, rest) => if skipWs rest = [] then some v else none
  | none => none

/-- Hex digit character (lowercase) for a value below 16. -/
def hexDig (n : Nat) : Char :=
  if n < 10 then Char.ofNat (48 + n) else Char.ofNat (87 + n)

/-- Encoding of one character inside a JSON string literal, as
`JSON.stringify` produces it. -/
def encChar (c : Char) : List Char :=
  if c = '"' then ['\\', '"']
  else if c = '\\' then ['\\', '\\']
  else if c.toNat = 8 then ['\\', 'b']
  else if c.toNat = 9 then ['\\', 't']
  else if c.toNat = 10 then ['\\', 'n']
  else if c.toNat = 12 then ['\\', 'f']
  else if c.toNat = 13 then ['\\', 'r']
  else if c.toNat < 32 then ['\\', 'u', '0', '0', hexDig (c.toNat / 16), hexDig (c.toNat % 16)]
  else [c]

/-- Encoding of a full JSON string literal, quotes included. -/
def encString (s : String) : List Char :=
  '"' :: (s.data.flatMap encChar ++ ['"'])

mutual
/-- Modelled from the spec: the JavaScript builtin `JSON.stringify`
(no spacing argument), as a character list. -/
def jsonEncode : JVal → List Char
  | .vnull => ['n', 'u', 'l', 'l']
  | .vbool true => ['t', 'r', 'u', 'e']
  | .vbool false => ['f', 'a', 'l', 's', 'e']
  | .vnum lex => lex.data
  | .vstr s => encString s
  | .varr .anil => ['[', ']']
  | .varr (.acons v t) => '[' :: (jsonEncode v ++ encArrTail t ++ [']'])
  | .vobj .onil => ['{', '}']
  | .vobj (.ocons k v t) =>
    '{' :: (encString k ++ ':' :: jsonEncode v ++ encObjTail t ++ ['}'])

/-- Encode the remaining elements of an array, each preceded by a comma. -/
def encArrTail : JArr → List Char
  | .anil => []
  | .acons v t => ',' :: (jsonEncode v ++ encArrTail t)

/-- Encode the remaining members of an object, each preceded by a comma. -/
def encObjTail : JObj → List Char
  | .onil => []
  | .ocons k v t => ',' :: (encString k ++ ':' :: jsonEncode v ++ encObjTail t)
end

/-- `JSON.stringify` as a `String`. -/
def jsonStringify (v : JVal) : String :=
  ⟨jsonEncode v⟩

/-! ## Parameter parsing (`parseParameters` in both variants)
The richer variant's `PARAM_RE = /^([^=]+)=([^]*)$/` accepts any value;
the simpler variant's `/^([^=]+)=(.*)$/` additionally rejects values
containing a line terminator, since JS `.` never matches one. Both are
embedded with the split-at-first-`=` semantics of their regex. -/

/-- Errors of the parameter parser, named as in the spec taxonomy: the
sources throw `'invalid arg: ' + arg` respectively a `JSON.parse`
`SyntaxError`. -/
inductive ParamError : Type where
  | malformedArgument (arg : String) : ParamError
  | invalidJson : ParamError
deriving DecidableEq

/-- A parsed parameter set: JS object in insertion order, unique names. -/
abbrev Params := List (String × JVal)

/-- JS property assignment on the parameter object `params[name] = value`. -/
def setParam (ps : Params) (name : String) (v : JVal) : Params :=
  if ps.any fun p => p.1 = name then
    ps.map fun p => if p.1 = name then (name, v) else p
  else ps ++ [(name, v)]

/-- Split a character list at its first `=`. -/
def splitFirstEq : List Char → Option (List Char × List Char)
  | [] => none
  | c :: r =>
    if c = '=' then some ([], r)
    else
      match splitFirstEq r with
      | some (n, v) => some (c :: n, v)
      | none => none

/-- `arg.match(PARAM_RE)`: the anchored match of `^([^=]+)=([^]*)$`.
The greedy `[^=]+` group is the (non-empty) prefix before the first `=`;
the second group is everything after it. -/
def matchParamRe (arg : String) : Option (String × String) :=
  match splitFirstEq arg.data with
  | some (n, v) => if n.isEmpty then none else some (⟨n⟩, ⟨v⟩)
  | none => none

/-- The `_startsWith` helper of the richer variant
(`string.lastIndexOf(search, 0) === 0`, i.e. a prefix test). -/
def _startsWith (s search : String) : Bool :=
  search.data.isPrefixOf s.data

/-- The `json:` step of the richer variant: strip the tag and `JSON.parse`
the remainder, or keep the raw string when the tag is absent. -/
def jsonStep (value : String) : Except ParamError JVal :=
  if _startsWith value "json:" then
    match jsonParse (value.drop 5) with
    | some j => .ok j
    | none => .error .invalidJson
  else .ok (.vstr value)

/-- The `true`/`false` coercion both variants apply to a candidate value. -/
def coerceBool (v : JVal) : JVal :=
  match v with
  | .vstr s => if s = "true" then .vbool true
               else if s = "false" then .vbool false
               else .vstr s
  | v => v

/-- One loop iteration of the richer variant's `parseParameters`: match the
token, apply the `json:` step, store under `@` without the boolean
coercion, otherwise coerce `true`/`false` and store. -/
def processToken (ps : Params) (arg : String) : Except ParamError Params :=
  match matchParamRe arg with
  | none => .error (.malformedArgument arg)
  | some (name, rawValue) =>
    match jsonStep rawValue with
    | .error e => .error e
    | .ok value =>
      if name = "@" then .ok (setParam ps "@" value)
      else .ok (setParam ps name (coerceBool value))

/-- `parseParameters` of the richer variant. -/
def parseParameters (args : List String) : Except ParamError Params :=
  args.foldlM processToken []

/-- A JavaScript line terminator, which the `.` of a regex without the
`s` flag never matches. -/
def isLineTerm (c : Char) : Bool :=
  c = '\n' || c = '\r' || c = '\u2028' || c = '\u2029'

/-- `arg.match(PARAM_RE)` for the simpler variant's
`PARAM_RE = /^([^=]+)=(.*)$/`: the name is still the non-empty prefix
before the first `=`, but `(.*)$` fails on any value containing a line
terminator. -/
def matchParamReSimple (arg : String) : Option (String × String) :=
  match matchParamRe arg with
  | some (n, v) => if v.data.any isLineTerm then none else some (n, v)
  | none => none

/-- One loop iteration of the simpler variant's `parseParameters`: no
`json:` handling, the `@` value is stored as the raw matched string. -/
def processTokenSimple (ps : Params) (arg : String) : Except ParamError Params :=
  match matchParamReSimple arg with
  | none => .error (.malformedArgument arg)
  | some (name, value) =>
    if name = "@" then .ok (setParam ps "@" (.vstr value))
    else .ok (setParam ps name (coerceBool (.vstr value)))

/-- `parseParameters` of the simpler variant. -/
def parseParametersSimple (args : List String) : Except ParamError Params :=
  args.foldlM processTokenSimple []

/-! ## Session bootstrap (`connect`) -/

/-- Persisted credentials as loaded by `config.load()`; either field may be
absent from storage. -/
structure StoredConfig : Type where
  server : Option String
  token : Option String

/-- JS truthiness test `!field` on an optional string: absent and empty
strings are falsy. -/
def falsyField : Option String → Bool
  | none => true
  | some s => s = ""

/-- Errors of `connect`, named as in the spec taxonomy (the sources throw
`'no server to connect to!'` respectively `'no token available'`). -/
inductive ConnectError : Type where
  | notConfigured : ConnectError
  | notAuthenticated : ConnectError
deriving DecidableEq

/-- Observable transport actions of `connect`. -/
inductive ConnectAction : Type where
  | openTransport (url : String) : ConnectAction
  | signInWithToken (token : String) : ConnectAction
deriving DecidableEq

/-- `connect()` of the richer variant: check the server field, then the
token field, and only then open the transport and sign in with the token.
The returned trace lists the transport actions actually performed. -/
def connect (c : StoredConfig) : List ConnectAction × Except ConnectError Unit :=
  if falsyField c.server then ([], .error .notConfigured)
  else if falsyField c.token then ([], .error .notAuthenticated)
  else
    ([.openTransport (c.server.getD ""), .signInWithToken (c.token.getD "")],
     .ok ())

/-! ## CLI dispatch (`main`) -/

/-- Core scan of the dash-to-camelCase transform: rewrite each `-w`
(`w` a word character) to the uppercase of `w`. -/
def camelCore : List Char → List Char
  | [] => []
  | '-' :: c :: rest =>
    if c.isAlphanum || c = '_' then c.toUpper :: camelCore rest
    else '-' :: camelCore (c :: rest)
  | c :: rest => c :: camelCore rest

/-- The dash-to-camelCase transform
`args[0].replace(/^--|-\w/g, ...)`: a leading `--` is dropped, and every
other `-` followed by a word character is replaced by that character
uppercased. -/
def dashToCamel (s : String) : String :=
  ⟨camelCore (if ['-', '-'].isPrefixOf s.data then s.data.drop 2 else s.data)⟩

/-- The operations exported on `module.exports` and hence reachable by
name from `main` (the JS `in` operator would additionally see properties
inherited from `Function.prototype`; the claims only concern these
genuine exports). -/
def localOps : List String :=
  ["help", "register", "unregister", "listCommands", "listObjects", "call"]

/-- Outcome of `main`'s argument dispatch. -/
inductive Dispatch : Type where
  | showHelp : Dispatch
  | localOp (name : String) (rest : List String) : Dispatch
  | remoteCall (args : List String) : Dispatch
deriving DecidableEq

/-- `main(args)`: help on no arguments or `-h`, else dispatch the
camelCased first token to an exported operation when one matches, else
treat the whole argument list as a remote method invocation. -/
def mainDispatch (args : List String) : Dispatch :=
  match args with
  | [] => .showHelp
  | a :: rest =>
    if a = "-h" then .showHelp
    else
      let fnName := dashToCamel a
      if fnName ∈ localOps then .localOp fnName rest
      else .remoteCall (a :: rest)

/-! ## Progress reporting (`printProgress`) -/

/-- A sample delivered by `progress-stream`: `length` is the configured
total length (absent when never configured; `progress-stream` reports `0`
for an unknown length). Rates are rationals, abstracting JS floats. -/
structure ProgressSample : Type where
  percentage : ℚ
  transferred : ℕ
  length : Option ℕ
  speed : ℚ
  eta : ℚ

/-- The `console.warn` call `printProgress` makes, with its interpolated
arguments (`Math.round(percentage)`, sizes, speed, `eta * 1e3`). -/
inductive ProgressLine : Type where
  | detailed (roundedPercentage : ℤ) (length : ℕ) (speed : ℚ) (etaMs : ℚ) : ProgressLine
  | short (transferred : ℕ) (speed : ℚ) : ProgressLine

/-- JS truthiness of the `length` field: `undefined` and `0` are falsy. -/
def truthyLength : Option ℕ → Bool
  | none => false
  | some n => n ≠ 0

/-- `printProgress`: the detailed percentage/size/speed/ETA line when
`progress.length` is truthy, the short transferred/speed line otherwise.
`round` is Mathlib's `⌊x + 1/2⌋`, which agrees with JS `Math.round` on
finite values. -/
def printProgress (p : ProgressSample) : ProgressLine :=
  if truthyLength p.length then
    .detailed (round p.percentage) (p.length.getD 0) p.speed (p.eta * 1000)
  else
    .short p.transferred p.speed

/-! ## URLs -/

/-- The base-URL rewrite in the richer variant's `call`:
`xo._url.replace(/^ws/, 'http')`. -/
def toHttpBaseUrl (url : String) : String :=
  if _startsWith url "ws" then "http" ++ url.drop 2 else url

/-- Scheme characters allowed after the leading letter of a URL scheme. -/
def isSchemeChar (c : Char) : Bool :=
  c.isAlphanum || c = '+' || c = '-' || c = '.'

/-- Does a reference carry its own scheme (`scheme:yes`)? -/
def hasScheme (cs : List Char) : Bool :=
  match cs with
  | c :: r =>
    c.isAlpha &&
      match r.dropWhile isSchemeChar with
      | ':' :: _ => true
      | _ => false
  | [] => false

/-- Split an absolute URL into its scheme and the part after `://`. -/
def splitSchemeRest : List Char → Option (List Char × List Char)
  | [] => none
  | c :: r =>
    if c = ':' ∧ r.take 2 = ['/', '/'] then some ([], r.drop 2)
    else (splitSchemeRest r).map fun p => (c :: p.1, p.2)

/-- The directory part (up to and including the last `/`) of a URL path,
`/` when the path has none. -/
def dirOf (path : List Char) : List Char :=
  match (path.reverse.dropWhile fun c => c ≠ '/') with
  | [] => ['/']
  | r => r.reverse

/-- Modelled from the spec: Node's `url.resolve(base, rel)` restricted to
the shapes this program produces — an absolute base URL and a reference
that is an absolute URL, protocol-relative, rooted, or relative path. -/
def resolveUrl (base rel : String) : String :=
  if hasScheme rel.data then rel
  else
    match splitSchemeRest base.data with
    | none => rel
    | some (scheme, hostPath) =>
      if ['/', '/'].isPrefixOf rel.data then ⟨scheme ++ ':' :: rel.data⟩
      else
        let host := hostPath.takeWhile fun c => c ≠ '/'
        let path := hostPath.dropWhile fun c => c ≠ '/'
        if ['/'].isPrefixOf rel.data then
          ⟨scheme ++ ':' :: '/' :: '/' :: (host ++ rel.data)⟩
        else
          ⟨scheme ++ ':' :: '/' :: '/' :: (host ++ dirOf path ++ rel.data)⟩

/-! ## The transfer dispatcher (`handleResult` inside `call`) -/

/-- `lodash.isObject` on a modelled value: arrays and objects (the only
non-primitive `JVal`s) are objects, primitives are not. -/
def isObjectJs : JVal → Bool
  | .varr _ => true
  | .vobj _ => true
  | _ => false

/-- `lodash.keys` on a modelled value: own enumerable keys — field names
for objects, decimal indices for arrays, nothing for primitives. -/
def jsKeys : JVal → List String
  | .vobj o => o.keys
  | .varr a => (List.range a.length).map fun i => toString i
  | _ => []

/-- Property read used by `result[key]`. -/
def jsGet : JVal → String → Option JVal
  | .vobj o, k => o.get k
  | _, _ => none

/-- Failures of the dispatcher relevant to the claims:
`localFileNotFound` models the `ENOENT` rejection of `stat`, and
`badUrlArgument` the `TypeError` Node's `url.resolve` throws when the
sentinel value is not a string. -/
inductive TransferError : Type where
  | localFileNotFound : TransferError
  | badUrlArgument : TransferError
deriving DecidableEq

/-- The overall outcome of `call` after dispatch: the untouched RPC result,
the `undefined` resolution of a finished download pipe, or the body of the
upload's POST response. -/
inductive CallOutput : Type where
  | value (v : JVal) : CallOutput
  | downloadDone : CallOutput
  | uploadBody (body : String) : CallOutput
deriving DecidableEq

/-- Network requests the dispatcher can issue. -/
inductive NetAction : Type where
  | httpGet (url : String) : NetAction
  | httpPost (url : String) (contentLength : ℕ) : NetAction
deriving DecidableEq

/-- The dispatcher's environment: the file system (size of an existing
local file) and the network (body of the response to a POST). -/
structure TransferEnv : Type where
  fsStat : String → Option ℕ
  postBody : String → ℕ → String

/-- `handleResult` of the richer variant: pass any value through unchanged
unless it is an object with exactly one key named `$getFrom` (stream the
resolved URL into the local file) or `$sendTo` (stat the local file —
rejecting when it is absent, before any request — then POST it with a
`content-length` header equal to its size and yield the response body).
The returned list is the trace of network requests issued. -/
def handleResult (env : TransferEnv) (baseUrl : String) (file : String)
    (result : JVal) : List NetAction × Except TransferError CallOutput :=
  let keys := jsKeys result
  if isObjectJs result && keys.length == 1 then
    let key := keys.headD ""
    if key = "$getFrom" then
      match jsGet result key with
      | some (.vstr path) =>
        let url := resolveUrl baseUrl path
        ([.httpGet url], .ok .downloadDone)
      | _ => ([], .error .badUrlArgument)
    else if key = "$sendTo" then
      match jsGet result key with
      | some (.vstr path) =>
        let url := resolveUrl baseUrl path
        match env.fsStat file with
        | none => ([], .error .localFileNotFound)
        | some size =>
          ([.httpPost url size], .ok (.uploadBody (env.postBody url size)))
      | _ => ([], .error .badUrlArgument)
    else ([], .ok (.value result))
  else ([], .ok (.value result))

/-- Errors of `call` before the remote invocation. -/
inductive CallError : Type where
  | missingCommandName : CallError
  | param (e : ParamError) : CallError
deriving DecidableEq

/-- The pure preparation phase of `call(args)`: take the method name off
the argument list, parse the rest, read the `@` entry into the local file
slot and delete it from the parameters forwarded to the remote call. -/
def callPrepare (args : List String) :
    Except CallError (String × Params × Option JVal) :=
  match args with
  | [] => .error .missingCommandName
  | method :: rest =>
    match parseParameters rest with
    | .error e => .error (.param e)
    | .ok ps =>
      .ok (method, ps.filter fun p => p.1 ≠ "@", (ps.lookup "@"))

/-- The parameters `call` forwards to the remote method (empty when
preparation fails). -/
def forwardedParams (args : List String) : Params :=
  match callPrepare args with
  | .ok (_, ps, _) => ps
  | .error _ => []

/-! ## Derived predicates and helpers used by the statements -/

/-- A valid JSON number lexeme: `parseNumber` consumes exactly it. -/
def numOK (lex : String) : Bool :=
  decide (parseNumber lex.data = some (lex, []))

mutual
/-- Well-formedness of a modelled JSON value: number lexemes follow the
JSON number grammar and object keys are distinct — the invariants every
value built by `jsonParse` enjoys. -/
def wfVal : JVal → Bool
  | .vnull => true
  | .vbool _ => true
  | .vstr _ => true
  | .vnum lex => numOK lex
  | .varr a => wfArr a
  | .vobj o => decide o.keys.Nodup && wfObj o

/-- Well-formedness of every element of a modelled array. -/
def wfArr : JArr → Bool
  | .anil => true
  | .acons v t => wfVal v && wfArr t

/-- Well-formedness of every value of a modelled object. -/
def wfObj : JObj → Bool
  | .onil => true
  | .ocons _ v t => wfVal v && wfObj t
end

/-- The element list of a non-empty array as `jsonEncode` lays it out
(without the surrounding brackets). -/
def encElems : JArr → List Char
  | .anil => []
  | .acons v t => jsonEncode v ++ encArrTail t

/-- The member list of a non-empty object as `jsonEncode` lays it out
(without the surrounding braces). -/
def encMembers : JObj → List Char
  | .onil => []
  | .ocons k v t => encString k ++ ':' :: jsonEncode v ++ encObjTail t

/-- Re-serialization of a stored parameter value, `name + "=" + stringify`:
a string renders as itself, anything else as its JSON text. -/
def stringifyValue : JVal → String
  | .vstr s => s
  | v => jsonStringify v

/-- The value pipeline of the richer variant's parser in isolation: the
`json:` step, then the boolean coercion on its outcome. -/
def coerceValue (value : String) : Except ParamError JVal :=
  match jsonStep value with
  | .error e => .error e
  | .ok v => .ok (coerceBool v)

/-- A transfer sentinel as the spec words it: an object whose only key is
`$getFrom` or `$sendTo`. -/
def isTransferSentinel (v : JVal) : Bool :=
  isObjectJs v && (jsKeys v).length == 1 &&
    ((jsKeys v).headD "" == "$getFrom" || (jsKeys v).headD "" == "$sendTo")

/-- Does a progress line use the detailed percentage/ETA format? -/
def isDetailedLine : ProgressLine → Bool
  | .detailed _ _ _ _ => true
  | .short _ _ => false

/-- The head of a list is not a decimal digit (or the list is empty). -/
def notDigitHead : List Char → Prop
  | [] => True
  | c :: _ => c.isDigit = false

/-- The head of a list cannot extend a JSON number lexeme. -/
def NotNumExt : List Char → Prop
  | [] => True
  | c :: _ => c.isDigit = false ∧ c ≠ '.' ∧ c ≠ 'e' ∧ c ≠ 'E'

/-- Input that may legally follow a serialized JSON value inside a larger
serialized document: nothing, or a separator/closer. -/
def OkRest : List Char → Prop
  | [] => True
  | c :: _ => c = ',' ∨ c = ']' ∨ c = '}'

/-- Shape of the integer part of a JSON number lexeme. -/
def IntPartShape (ip : List Char) : Prop :=
  ip = ['0'] ∨
    ∃ c ds, ip = c :: ds ∧ c.isDigit = true ∧ c ≠ '0' ∧ ∀ d ∈ ds, d.isDigit = true

/-- Shape of the (possibly empty) fraction part of a JSON number lexeme. -/
def FracPartShape (fp : List Char) : Prop :=
  fp = [] ∨ ∃ ds, fp = '.' :: ds ∧ ds ≠ [] ∧ ∀ d ∈ ds, d.isDigit = true

/-- Shape of the (possibly empty) exponent part of a JSON number lexeme. -/
def ExpPartShape (ep : List Char) : Prop :=
  ep = [] ∨
    ∃ e sg ds, ep = e :: (sg ++ ds) ∧ (e = 'e' ∨ e = 'E') ∧
      (sg = [] ∨ sg = ['+'] ∨ sg = ['-']) ∧ ds ≠ [] ∧ ∀ d ∈ ds, d.isDigit = true

/-- Shape of a complete JSON number lexeme. -/
def NumShape (lex : List Char) : Prop :=
  ∃ neg ip fp ep, lex = neg ++ ip ++ fp ++ ep ∧ (neg = [] ∨ neg = ['-']) ∧
    IntPartShape ip ∧ FracPartShape fp ∧ ExpPartShape ep

/-! ## Claims about the progress reporter, the bootstrap and the CLI -/

/-- C10: the progress formatter picks the detailed format (percentage,
total size, speed, ETA) exactly when the sample's total length is truthy;
a zero or absent total length yields the short transferred/speed format,
so a known-but-zero-length transfer never shows a percentage or ETA. -/
theorem printProgress_format_selection (p : ProgressSample) :
    (isDetailedLine (printProgress p) = true ↔ ∃ n, p.length = some n ∧ 0 < n) ∧
    ((p.length = none ∨ p.length = some 0) →
      printProgress p = .short p.transferred p.speed) := by
  rcases p with ⟨pc, tr, len, sp, et⟩
  rcases len with _ | n
  · simp [printProgress, truthyLength, isDetailedLine]
  · rcases Nat.eq_zero_or_pos n with rfl | hpos
    · simp [printProgress, truthyLength, isDetailedLine]
    · simp only [printProgress, truthyLength]
      have hne : n ≠ 0 := Nat.pos_iff_ne_zero.mp hpos
      simp [hne, isDetailedLine, hpos]

/-- Witness for C10: a sample with a known total length of `0` is rendered
with the short format. -/
theorem printProgress_format_selection_witness :
    printProgress ⟨(50 : ℚ), 100, some 0, 3, 7⟩ = .short 100 3 :=
  (printProgress_format_selection _).2 (Or.inr rfl)

/-- C7: `connect` fails with `NotConfigured` on a falsy persisted server
URL and with `NotAuthenticated` on a falsy token, in that order and
without touching the transport; with both fields present it opens the
transport and signs in with the token. -/
theorem connect_credential_checks (c : StoredConfig) :
    (falsyField c.server = true → connect c = ([], .error .notConfigured)) ∧
    (falsyField c.server = false → falsyField c.token = true →
      connect c = ([], .error .notAuthenticated)) ∧
    (∀ s t, c.server = some s → s ≠ "" → c.token = some t → t ≠ "" →
      connect c = ([.openTransport s, .signInWithToken t], .ok ())) := by
  refine ⟨fun h => by simp [connect, h], fun h1 h2 => by simp [connect, h1, h2], ?_⟩
  intro s t hs hsne ht htne
  simp [connect, hs, ht, falsyField, hsne, htne]

/-- Witness for C7: with a stored server URL and token, `connect` opens
the transport and signs in. -/
theorem connect_credential_checks_witness :
    connect ⟨some "wss://xo", some "tok"⟩ =
      ([.openTransport "wss://xo", .signInWithToken "tok"], .ok ()) :=
  (connect_credential_checks _).2.2 "wss://xo" "tok" rfl (by decide) rfl (by decide)

/-- C9: a first CLI token whose dash-to-camelCase transform names an
exported local operation is dispatched to that operation with the
remaining arguments, and is never sent to the server as a method name. -/
theorem mainDispatch_local_operation (a : String) (rest : List String)
    (h : dashToCamel a ∈ localOps) :
    mainDispatch (a :: rest) = .localOp (dashToCamel a) rest := by
  have hne : a ≠ "-h" := by
    rintro rfl
    revert h
    decide
  simp [mainDispatch, hne, h]

/-- Witness for C9: the bare token `register` is dispatched locally. -/
theorem mainDispatch_local_operation_witness :
    mainDispatch ["register", "https://xo", "admin"] =
      .localOp "register" ["https://xo", "admin"] := by
  rw [mainDispatch_local_operation "register" ["https://xo", "admin"] (by decide)]
  decide

/-! ## Claims about the transfer dispatcher -/

/-- C1: the dispatcher passes every RPC result through unchanged — with no
network action — unless it is an object with exactly one key named
`$getFrom` or `$sendTo`: non-objects, objects with zero or at least two
keys, and single-key objects under any other key are returned verbatim. -/
theorem handleResult_passthrough (env : TransferEnv) (baseUrl file : String)
    (result : JVal) (h : isTransferSentinel result = false) :
    handleResult env baseUrl file result = ([], .ok (.value result)) := by
  cases result with
  | vnull => simp [handleResult, isObjectJs, jsKeys]
  | vbool b => simp [handleResult, isObjectJs, jsKeys]
  | vnum s => simp [handleResult, isObjectJs, jsKeys]
  | vstr s => simp [handleResult, isObjectJs, jsKeys]
  | varr a =>
    cases a with
    | anil => simp [handleResult, isObjectJs, jsKeys, JArr.length]
    | acons v t =>
      cases t with
      | anil =>
        have h0 : (toString (0 : ℕ) : String) ≠ "$getFrom" ∧
            (toString (0 : ℕ) : String) ≠ "$sendTo" := by decide
        simp [handleResult, isObjectJs, jsKeys, JArr.length, List.range_succ,
          h0.1, h0.2]
      | acons v2 t2 => simp [handleResult, isObjectJs, jsKeys, JArr.length]
  | vobj o =>
    cases o with
    | onil => simp [handleResult, isObjectJs, jsKeys, JObj.keys]
    | ocons k v t =>
      cases t with
      | onil =>
        simp only [isTransferSentinel, isObjectJs, jsKeys, JObj.keys,
          Bool.and_eq_false_iff, Bool.or_eq_false_iff] at h
        rcases h with h | h
        · rcases h with h | h
          · simp at h
          · simp [JObj.keys] at h
        · have h1 : k ≠ "$getFrom" := by
            intro hk
            simp [hk] at h
          have h2 : k ≠ "$sendTo" := by
            intro hk
            simp [hk] at h
          simp [handleResult, isObjectJs, jsKeys, JObj.keys, h1, h2]
      | ocons k2 v2 t2 => simp [handleResult, isObjectJs, jsKeys, JObj.keys]

/-- Witness for C1: a single-key object under the key `other` is returned
verbatim with no transfer. -/
theorem handleResult_passthrough_witness :
    handleResult ⟨fun _ => some 1, fun u _ => u⟩ "http://h/" "f"
        (.vobj (.ocons "other" (.vnum "1") .onil)) =
      ([], .ok (.value (.vobj (.ocons "other" (.vnum "1") .onil)))) :=
  handleResult_passthrough _ _ _ _ (by decide)

/-- C2: on a single-key `$sendTo` result, the dispatcher first stats the
local file and fails with `LocalFileNotFound` — issuing no network request
— when it is absent; when the file exists with size `n` it issues exactly
one POST to the resolved URL with `content-length` `n`, and the overall
output is the body of that POST's response. -/
theorem handleResult_sendTo (env : TransferEnv) (baseUrl file path : String) :
    (env.fsStat file = none →
      handleResult env baseUrl file (.vobj (.ocons "$sendTo" (.vstr path) .onil))
        = ([], .error .localFileNotFound)) ∧
    (∀ n, env.fsStat file = some n →
      handleResult env baseUrl file (.vobj (.ocons "$sendTo" (.vstr path) .onil))
        = ([.httpPost (resolveUrl baseUrl path) n],
           .ok (.uploadBody (env.postBody (resolveUrl baseUrl path) n)))) := by
  constructor
  · intro h
    simp [handleResult, isObjectJs, jsKeys, JObj.keys, jsGet, JObj.get, h]
  · intro n h
    simp [handleResult, isObjectJs, jsKeys, JObj.keys, jsGet, JObj.get, h]

/-- Witness for C2: a missing local file yields `LocalFileNotFound` with an
empty request trace, and an existing 42-byte file yields a POST with
`content-length` 42 whose response body is the output. -/
theorem handleResult_sendTo_witness :
    handleResult ⟨fun _ => none, fun u _ => u⟩ "http://h/" "f"
        (.vobj (.ocons "$sendTo" (.vstr "/up/1") .onil))
      = ([], .error .localFileNotFound) ∧
    handleResult ⟨fun _ => some 42, fun u n => u ++ toString n⟩ "http://h/" "f"
        (.vobj (.ocons "$sendTo" (.vstr "/up/1") .onil))
      = ([.httpPost "http://h/up/1" 42], .ok (.uploadBody "http://h/up/142")) := by
  constructor
  · exact (handleResult_sendTo _ _ _ _).1 rfl
  · have h := (handleResult_sendTo ⟨fun _ => some 42, fun u n => u ++ toString n⟩
      "http://h/" "f" "/up/1").2 42 rfl
    rw [h]
    decide

/-- Resolution of a rooted path (`/...` but not `//...`) against an
absolute base URL keeps the base's scheme and host. -/
theorem resolveUrl_rooted (base relPath : String) (scheme t : List Char)
    (hsplit : splitSchemeRest base.data = some (scheme, t))
    (hns : hasScheme relPath.data = false)
    (hnp : List.isPrefixOf ['/', '/'] relPath.data = false)
    (hroot : List.isPrefixOf ['/'] relPath.data = true) :
    resolveUrl base relPath =
      ⟨scheme ++ ':' :: '/' :: '/' ::
        ((t.takeWhile fun c => c ≠ '/') ++ relPath.data)⟩ := by
  unfold resolveUrl
  simp [hns, hsplit, hnp, hroot]

/-- C6: for every sentinel transfer, the base URL is the session's server
URL with a `ws`/`wss` prefix rewritten to `http`/`https`, so resolving a
rooted sentinel path against it always produces a URL with an HTTP-family
scheme, whichever of the supported control-channel schemes the server URL
uses. -/
theorem transfer_url_scheme (serverUrl relPath : String)
    (hserver : _startsWith serverUrl "ws://" = true ∨
      _startsWith serverUrl "wss://" = true ∨
      _startsWith serverUrl "http://" = true ∨
      _startsWith serverUrl "https://" = true)
    (hrel1 : _startsWith relPath "/" = true)
    (hrel2 : _startsWith relPath "//" = false) :
    _startsWith (resolveUrl (toHttpBaseUrl serverUrl) relPath) "http://" = true ∨
    _startsWith (resolveUrl (toHttpBaseUrl serverUrl) relPath) "https://" = true := by
  obtain ⟨p, hp⟩ : ∃ p, relPath.data = '/' :: p := by
    obtain ⟨t, ht⟩ := List.isPrefixOf_iff_prefix.mp hrel1
    exact ⟨t, by rw [← ht]; rfl⟩
  have hns : hasScheme relPath.data = false := by
    rw [hp]
    simp [hasScheme, (by decide : ('/' : Char).isAlpha = false)]
  have hnp : List.isPrefixOf ['/', '/'] relPath.data = false := hrel2
  have hroot : List.isPrefixOf ['/'] relPath.data = true := hrel1
  rcases hserver with h | h | h | h
  · -- ws://
    obtain ⟨t, ht⟩ := List.isPrefixOf_iff_prefix.mp h
    have hdata : serverUrl.data = 'w' :: 's' :: ':' :: '/' :: '/' :: t := by
      rw [← ht]; rfl
    have hws : _startsWith serverUrl "ws" = true := by
      unfold _startsWith
      rw [hdata]
      exact List.isPrefixOf_iff_prefix.mpr ⟨_, rfl⟩
    have hbase : (toHttpBaseUrl serverUrl).data =
        'h' :: 't' :: 't' :: 'p' :: ':' :: '/' :: '/' :: t := by
      unfold toHttpBaseUrl
      rw [if_pos hws, String.data_append, String.data_drop, hdata]
      rfl
    have hsplit : splitSchemeRest (toHttpBaseUrl serverUrl).data =
        some (['h', 't', 't', 'p'], t) := by
      rw [hbase]
      simp [splitSchemeRest]
    rw [resolveUrl_rooted _ _ _ _ hsplit hns hnp hroot]
    left
    exact List.isPrefixOf_iff_prefix.mpr ⟨_, rfl⟩
  · -- wss://
    obtain ⟨t, ht⟩ := List.isPrefixOf_iff_prefix.mp h
    have hdata : serverUrl.data = 'w' :: 's' :: 's' :: ':' :: '/' :: '/' :: t := by
      rw [← ht]; rfl
    have hws : _startsWith serverUrl "ws" = true := by
      unfold _startsWith
      rw [hdata]
      exact List.isPrefixOf_iff_prefix.mpr ⟨_, rfl⟩
    have hbase : (toHttpBaseUrl serverUrl).data =
        'h' :: 't' :: 't' :: 'p' :: 's' :: ':' :: '/' :: '/' :: t := by
      unfold toHttpBaseUrl
      rw [if_pos hws, String.data_append, String.data_drop, hdata]
      rfl
    have hsplit : splitSchemeRest (toHttpBaseUrl serverUrl).data =
        some (['h', 't', 't', 'p', 's'], t) := by
      rw [hbase]
      simp [splitSchemeRest]
    rw [resolveUrl_rooted _ _ _ _ hsplit hns hnp hroot]
    right
    exact List.isPrefixOf_iff_prefix.mpr ⟨_, rfl⟩
  · -- http://
    obtain ⟨t, ht⟩ := List.isPrefixOf_iff_prefix.mp h
    have hdata : serverUrl.data = 'h' :: 't' :: 't' :: 'p' :: ':' :: '/' :: '/' :: t := by
      rw [← ht]; rfl
    have hws : _startsWith serverUrl "ws" = false := by
      unfold _startsWith
      rw [hdata]
      simp [List.isPrefixOf]
    have hbase : (toHttpBaseUrl serverUrl).data =
        'h' :: 't' :: 't' :: 'p' :: ':' :: '/' :: '/' :: t := by
      unfold toHttpBaseUrl
      rw [if_neg (by simp [hws]), hdata]
    have hsplit : splitSchemeRest (toHttpBaseUrl serverUrl).data =
        some (['h', 't', 't', 'p'], t) := by
      rw [hbase]
      simp [splitSchemeRest]
    rw [resolveUrl_rooted _ _ _ _ hsplit hns hnp hroot]
    left
    exact List.isPrefixOf_iff_prefix.mpr ⟨_, rfl⟩
  · -- https://
    obtain ⟨t, ht⟩ := List.isPrefixOf_iff_prefix.mp h
    have hdata : serverUrl.data =
        'h' :: 't' :: 't' :: 'p' :: 's' :: ':' :: '/' :: '/' :: t := by
      rw [← ht]; rfl
    have hws : _startsWith serverUrl "ws" = false := by
      unfold _startsWith
      rw [hdata]
      simp [List.isPrefixOf]
    have hbase : (toHttpBaseUrl serverUrl).data =
        'h' :: 't' :: 't' :: 'p' :: 's' :: ':' :: '/' :: '/' :: t := by
      unfold toHttpBaseUrl
      rw [if_neg (by simp [hws]), hdata]
    have hsplit : splitSchemeRest (toHttpBaseUrl serverUrl).data =
        some (['h', 't', 't', 'p', 's'], t) := by
      rw [hbase]
      simp [splitSchemeRest]
    rw [resolveUrl_rooted _ _ _ _ hsplit hns hnp hroot]
    right
    exact List.isPrefixOf_iff_prefix.mpr ⟨_, rfl⟩

/-- Witness for C6: the `wss` control URL of a session resolves a rooted
sentinel path to an `https` URL. -/
theorem transfer_url_scheme_witness :
    _startsWith (resolveUrl (toHttpBaseUrl "wss://xo.example.com") "/files/abc")
        "http://" = true ∨
    _startsWith (resolveUrl (toHttpBaseUrl "wss://xo.example.com") "/files/abc")
        "https://" = true :=
  transfer_url_scheme "wss://xo.example.com" "/files/abc"
    (Or.inr (Or.inl (by decide))) (by decide) (by decide)

/-! ## Claims about the parameter parser -/

/-- `splitFirstEq` succeeds exactly on lists containing `=`, splitting at
the first occurrence. -/
theorem splitFirstEq_some_iff : ∀ (cs n v : List Char),
    splitFirstEq cs = some (n, v) ↔ cs = n ++ '=' :: v ∧ '=' ∉ n := by
  intro cs
  induction cs with
  | nil =>
    intro n v
    constructor
    · intro h
      simp [splitFirstEq] at h
    · rintro ⟨h, -⟩
      exact absurd h.symm (by simp)
  | cons c r ih =>
    intro n v
    by_cases hc : c = '='
    · subst hc
      constructor
      · intro h
        simp [splitFirstEq] at h
        obtain ⟨rfl, rfl⟩ := h
        exact ⟨rfl, by simp⟩
      · rintro ⟨heq, hnin⟩
        cases n with
        | nil =>
          simp at heq
          simp [splitFirstEq, heq]
        | cons a n2 =>
          simp at heq
          exact absurd (heq.1 ▸ List.mem_cons_self a n2) hnin
    · constructor
      · intro h
        simp only [splitFirstEq] at h
        rw [if_neg hc] at h
        cases hsp : splitFirstEq r with
        | none => rw [hsp] at h; simp at h
        | some p =>
          rw [hsp] at h
          simp at h
          obtain ⟨rfl, rfl⟩ := h
          obtain ⟨hr, hnin⟩ := (ih p.1 p.2).mp (by rw [hsp])
          refine ⟨by rw [hr]; rfl, ?_⟩
          intro hmem
          rcases List.mem_cons.mp hmem with h1 | h1
          · exact hc h1.symm
          · exact hnin h1
      · rintro ⟨heq, hnin⟩
        cases n with
        | nil =>
          simp at heq
          exact absurd heq.1 hc
        | cons a n2 =>
          simp at heq
          obtain ⟨rfl, hr⟩ := heq
          have hnin2 : '=' ∉ n2 := fun hm => hnin (List.mem_cons_of_mem _ hm)
          have hrec := (ih n2 v).mpr ⟨hr, hnin2⟩
          simp [splitFirstEq, hc, hrec]

/-- C3: the parameter parser accepts a token exactly when it matches
`^([^=]+)=([^]*)$` — a non-empty `=`-free name, then `=`, then an
arbitrary (possibly empty) value — and rejects every other token,
including the empty string, with `MalformedArgument`. -/
theorem param_token_grammar :
    (∀ arg : String, (matchParamRe arg).isSome = true ↔
      ∃ n v : List Char, arg.data = n ++ '=' :: v ∧ n ≠ [] ∧ '=' ∉ n) ∧
    (∀ (ps : Params) (arg : String),
      (¬∃ n v : List Char, arg.data = n ++ '=' :: v ∧ n ≠ [] ∧ '=' ∉ n) →
      processToken ps arg = .error (.malformedArgument arg)) := by
  have hiff : ∀ arg : String, (matchParamRe arg).isSome = true ↔
      ∃ n v : List Char, arg.data = n ++ '=' :: v ∧ n ≠ [] ∧ '=' ∉ n := by
    intro arg
    unfold matchParamRe
    constructor
    · intro h
      cases hsp : splitFirstEq arg.data with
      | none => rw [hsp] at h; simp at h
      | some p =>
        obtain ⟨n0, v0⟩ := p
        rw [hsp] at h
        by_cases hn : n0.isEmpty
        · exfalso
          simp [hn] at h
        · obtain ⟨hr, hnin⟩ := (splitFirstEq_some_iff _ n0 v0).mp hsp
          exact ⟨n0, v0, hr, by simpa [List.isEmpty_iff] using hn, hnin⟩
    · rintro ⟨n, v, hr, hne, hnin⟩
      have hsp : splitFirstEq arg.data = some (n, v) :=
        (splitFirstEq_some_iff _ _ _).mpr ⟨hr, hnin⟩
      simp [hsp, List.isEmpty_iff, hne]
  refine ⟨hiff, ?_⟩
  intro ps arg hno
  have h2 : matchParamRe arg = none := by
    cases hm : matchParamRe arg with
    | none => rfl
    | some p => exact absurd ((hiff arg).mp (by rw [hm]; rfl)) hno
  simp [processToken, h2]

/-- Witness for C3: the empty token is rejected with `MalformedArgument`. -/
theorem param_token_grammar_witness :
    processToken [] "" = .error (.malformedArgument "") :=
  param_token_grammar.2 [] "" (by
    rintro ⟨n, v, h, -, -⟩
    have hd : ("" : String).data = [] := rfl
    rw [hd] at h
    exact absurd h.symm (by simp))

/-- Matching a token built from an `=`-free non-empty name splits it back
into that name and the value. -/
theorem matchParamRe_append (name value : String)
    (h1 : name.data ≠ []) (h2 : '=' ∉ name.data) :
    matchParamRe (name ++ "=" ++ value) = some (name, value) := by
  have hd : (name ++ "=" ++ value).data = name.data ++ '=' :: value.data := by
    rw [String.data_append, String.data_append, List.append_assoc]
    rfl
  have hsp : splitFirstEq (name ++ "=" ++ value).data =
      some (name.data, value.data) :=
    (splitFirstEq_some_iff _ _ _).mpr ⟨hd, h2⟩
  unfold matchParamRe
  rw [hsp]
  simp [List.isEmpty_iff, h1]

/-- C4 counterexample: on the token `a=json:"true"` the code applies both
coercions — `JSON.parse` yields the string `"true"`, which the subsequent
check then turns into the boolean `true` — whereas a single-coercion
pipeline would store the string. -/
theorem parseParameters_double_coercion_cex :
    parseParameters ["a=json:\"true\""] = .ok [("a", .vbool true)] ∧
    jsonParse "\"true\"" = some (.vstr "true") ∧
    JVal.vbool true ≠ JVal.vstr "true" :=
  ⟨by decide, by decide, by decide⟩

/-- A single ordinary token stores the coerced value under its name. -/
theorem parseParameters_single (name value : String)
    (h1 : name.data ≠ []) (h2 : '=' ∉ name.data) (h3 : name ≠ "@") :
    parseParameters [name ++ "=" ++ value] =
      (coerceValue value).map fun v => [(name, v)] := by
  have hm := matchParamRe_append name value h1 h2
  unfold parseParameters coerceValue
  cases hj : jsonStep value with
  | error e => simp [List.foldlM, processToken, hm, hj, Except.map]
  | ok v => simp [List.foldlM, processToken, hm, hj, h3, setParam, Except.map]

/-- C4 (amended): the richer variant's value pipeline applies the `json:`
step first — stripping the tag and JSON-parsing the remainder, failing
with `InvalidJson` on malformed input — and then applies the `true`/
`false` boolean coercion to the resulting value, whether or not it came
from JSON parsing. -/
theorem parseParameters_value_coercions (name value : String)
    (h1 : name.data ≠ []) (h2 : '=' ∉ name.data) (h3 : name ≠ "@") :
    parseParameters [name ++ "=" ++ value] =
      (coerceValue value).map fun v => [(name, v)] :=
  parseParameters_single name value h1 h2 h3

/-- Witness for C4 (amended): `a=json:{"a":1}` stores the parsed object,
`a=true` stores the boolean, and `a=x` stores the plain string. -/
theorem parseParameters_value_coercions_witness :
    parseParameters ["a=json:\x7b\"a\":1\x7d"] =
      .ok [("a", .vobj (.ocons "a" (.vnum "1") .onil))] ∧
    parseParameters ["a=true"] = .ok [("a", .vbool true)] ∧
    parseParameters ["a=x"] = .ok [("a", .vstr "x")] := by
  refine ⟨?_, ?_, ?_⟩
  · rw [show ("a=json:\x7b\"a\":1\x7d" : String) =
      "a" ++ "=" ++ "json:\x7b\"a\":1\x7d" from rfl,
      parseParameters_value_coercions "a" _ (by decide) (by decide) (by decide)]
    decide
  · rw [show ("a=true" : String) = "a" ++ "=" ++ "true" from rfl,
      parseParameters_value_coercions "a" _ (by decide) (by decide) (by decide)]
    decide
  · rw [show ("a=x" : String) = "a" ++ "=" ++ "x" from rfl,
      parseParameters_value_coercions "a" _ (by decide) (by decide) (by decide)]
    decide

/-- C5 counterexample: the richer variant stores `@=true` as the raw
string `"true"` — the boolean coercion is skipped for the reserved name,
contrary to the claim that the same JSON/bool coercion is applied. -/
theorem at_raw_value_cex :
    parseParameters ["@=true"] = .ok [("@", .vstr "true")] ∧
    coerceBool (.vstr "true") = .vbool true ∧
    JVal.vstr "true" ≠ JVal.vbool true :=
  ⟨by decide, by decide, by decide⟩

/-- C5 (amended): the reserved name `@` is stored in the parameter set but
stripped from the parameters forwarded by `call`; the simpler variant
stores its value as the raw matched string — its stricter `(.*)$` regex
rejecting any value containing a line terminator with `MalformedArgument`
— while the richer variant applies the `json:` coercion but not the
boolean coercion before storing. -/
theorem at_parameter_handling :
    (∀ value : String, value.data.any isLineTerm = false →
      parseParametersSimple ["@=" ++ value] = .ok [("@", .vstr value)]) ∧
    (∀ value : String, value.data.any isLineTerm = true →
      parseParametersSimple ["@=" ++ value] =
        .error (.malformedArgument ("@=" ++ value))) ∧
    (∀ value : String,
      parseParameters ["@=" ++ value] = (jsonStep value).map fun v => [("@", v)]) ∧
    (∀ args : List String, "@" ∉ (forwardedParams args).map Prod.fst) := by
  have hmr : ∀ value : String, matchParamRe ("@=" ++ value) = some ("@", value) := by
    intro value
    have : ("@=" ++ value : String) = "@" ++ "=" ++ value := rfl
    rw [this]
    exact matchParamRe_append "@" value (by decide) (by decide)
  refine ⟨?_, ?_, ?_, ?_⟩
  · intro value hno
    have hms : matchParamReSimple ("@=" ++ value) = some ("@", value) := by
      unfold matchParamReSimple
      rw [hmr value]
      simp [hno]
    simp [parseParametersSimple, List.foldlM, processTokenSimple, hms, setParam]
  · intro value hyes
    have hms : matchParamReSimple ("@=" ++ value) = none := by
      unfold matchParamReSimple
      rw [hmr value]
      simp [hyes]
    simp [parseParametersSimple, List.foldlM, processTokenSimple, hms]
  · intro value
    cases hj : jsonStep value with
    | error e =>
      simp [parseParameters, List.foldlM, processToken, hmr value, hj, Except.map]
    | ok v =>
      simp [parseParameters, List.foldlM, processToken, hmr value, hj, setParam,
        Except.map]
  · intro args
    unfold forwardedParams
    cases hcp : callPrepare args with
    | error e => simp
    | ok t =>
      obtain ⟨m1, ps1, f1⟩ := t
      show "@" ∉ ps1.map Prod.fst
      cases args with
      | nil => simp [callPrepare] at hcp
      | cons m rest =>
        simp only [callPrepare] at hcp
        cases hp : parseParameters rest with
        | error e => rw [hp] at hcp; simp at hcp
        | ok ps =>
          rw [hp] at hcp
          simp only [Except.ok.injEq, Prod.mk.injEq] at hcp
          obtain ⟨-, h2, -⟩ := hcp
          rw [← h2]
          intro hmem
          obtain ⟨q, hqf, hq1⟩ := List.mem_map.mp hmem
          have hkeep := (List.mem_filter.mp hqf).2
          rw [hq1] at hkeep
          simp at hkeep

/-- Witness for C5 (amended): `@=f` is stored by both variants, the
simpler variant rejects a value with an embedded newline, and the
parameters forwarded for `m @=f a=1` do not contain `@`. -/
theorem at_parameter_handling_witness :
    parseParametersSimple ["@=f"] = .ok [("@", .vstr "f")] ∧
    parseParametersSimple ["@=a\nb"] =
      .error (.malformedArgument "@=a\nb") ∧
    parseParameters ["@=f"] = .ok [("@", .vstr "f")] ∧
    "@" ∉ (forwardedParams ["m", "@=f", "a=1"]).map Prod.fst := by
  refine ⟨?_, ?_, ?_, at_parameter_handling.2.2.2 ["m", "@=f", "a=1"]⟩
  · have h := at_parameter_handling.1 "f" (by decide)
    rw [show ("@=f" : String) = "@=" ++ "f" from rfl, h]
  · have h := at_parameter_handling.2.1 "a\nb" (by decide)
    rw [show ("@=a\nb" : String) = "@=" ++ "a\nb" from rfl, h]
  · have h := at_parameter_handling.2.2.1 "f"
    rw [show ("@=f" : String) = "@=" ++ "f" from rfl, h]
    decide

/-! ## JSON number lexeme lemmas -/

/-- A run of digits followed by a non-digit is taken whole by `takeWhile`. -/
theorem takeWhile_digits_append (ds rest : List Char)
    (h1 : ∀ d ∈ ds, d.isDigit = true) (h2 : notDigitHead rest) :
    (ds ++ rest).takeWhile Char.isDigit = ds := by
  induction ds with
  | nil =>
    cases rest with
    | nil => simp
    | cons c r =>
      simp only [notDigitHead] at h2
      simp [List.takeWhile, h2]
  | cons d ds ih =>
    simp only [List.cons_append, List.takeWhile, h1 d (List.mem_cons_self d ds)]
    simp [ih fun x hx => h1 x (List.mem_cons_of_mem _ hx)]

/-- A run of digits followed by a non-digit is dropped whole by
`dropWhile`. -/
theorem dropWhile_digits_append (ds rest : List Char)
    (h1 : ∀ d ∈ ds, d.isDigit = true) (h2 : notDigitHead rest) :
    (ds ++ rest).dropWhile Char.isDigit = rest := by
  induction ds with
  | nil =>
    cases rest with
    | nil => simp
    | cons c r =>
      simp only [notDigitHead] at h2
      simp [List.dropWhile, h2]
  | cons d ds ih =>
    simp only [List.cons_append, List.dropWhile, h1 d (List.mem_cons_self d ds)]
    simp [ih fun x hx => h1 x (List.mem_cons_of_mem _ hx)]

/-- Reconstruction: an integer part of valid shape parses back, leaving a
non-digit tail untouched. -/
theorem parseIntPart_recon (ip tail : List Char) (h : IntPartShape ip)
    (ht : notDigitHead tail) : parseIntPart (ip ++ tail) = some (ip, tail) := by
  rcases h with rfl | ⟨c, ds, rfl, hc, hc0, hds⟩
  · simp [parseIntPart]
  · simp [parseIntPart, hc0, hc, takeDigits,
      takeWhile_digits_append ds tail hds ht,
      dropWhile_digits_append ds tail hds ht]

/-- A fraction parser consumes nothing when the input does not start with
a dot. -/
theorem parseFracPart_none (cs : List Char)
    (h : ∀ c r, cs = c :: r → c ≠ '.') : parseFracPart cs = ([], cs) := by
  cases cs with
  | nil => simp [parseFracPart]
  | cons c r => simp [parseFracPart, h c r rfl]

/-- Reconstruction: a fraction part of valid shape parses back. -/
theorem parseFracPart_recon (ds tail : List Char) (hne : ds ≠ [])
    (hds : ∀ d ∈ ds, d.isDigit = true) (ht : notDigitHead tail) :
    parseFracPart ('.' :: ds ++ tail) = ('.' :: ds, tail) := by
  cases ds with
  | nil => exact absurd rfl hne
  | cons d ds2 =>
    simp [parseFracPart, hds d (List.mem_cons_self d ds2), takeDigits,
      takeWhile_digits_append ds2 tail
        (fun x hx => hds x (List.mem_cons_of_mem _ hx)) ht,
      dropWhile_digits_append ds2 tail
        (fun x hx => hds x (List.mem_cons_of_mem _ hx)) ht]

/-- An exponent parser consumes nothing when the input does not start with
an exponent marker. -/
theorem parseExpPart_none (cs : List Char)
    (h : ∀ c r, cs = c :: r → c ≠ 'e' ∧ c ≠ 'E') : parseExpPart cs = ([], cs) := by
  cases cs with
  | nil => simp [parseExpPart]
  | cons c r => simp [parseExpPart, (h c r rfl).1, (h c r rfl).2]

/-- Reconstruction: an exponent part of valid shape parses back. -/
theorem parseExpPart_recon (e : Char) (sg ds tail : List Char)
    (he : e = 'e' ∨ e = 'E') (hsg : sg = [] ∨ sg = ['+'] ∨ sg = ['-'])
    (hne : ds ≠ []) (hds : ∀ d ∈ ds, d.isDigit = true) (ht : notDigitHead tail) :
    parseExpPart (e :: (sg ++ ds) ++ tail) = (e :: (sg ++ ds), tail) := by
  have htd := takeWhile_digits_append ds tail hds ht
  have hdd := dropWhile_digits_append ds tail hds ht
  rcases hsg with rfl | rfl | rfl
  · cases ds with
    | nil => exact absurd rfl hne
    | cons d ds2 =>
      have hd : d.isDigit = true := hds d (List.mem_cons_self d ds2)
      have hdp : d ≠ '+' := by rintro rfl; exact absurd hd (by decide)
      have hdm : d ≠ '-' := by rintro rfl; exact absurd hd (by decide)
      simp only [List.nil_append] at htd hdd ⊢
      simp [parseExpPart, he, hdp, hdm, takeDigits, hd,
        takeWhile_digits_append ds2 tail
          (fun x hx => hds x (List.mem_cons_of_mem _ hx)) ht,
        dropWhile_digits_append ds2 tail
          (fun x hx => hds x (List.mem_cons_of_mem _ hx)) ht]
  · simp [parseExpPart, he, takeDigits, htd, hdd, hne]
  · simp [parseExpPart, he, takeDigits, htd, hdd, hne]

/-- `parseNeg` splits its input and yields an empty or minus-sign part. -/
theorem parseNeg_char (cs : List Char) :
    cs = (parseNeg cs).1 ++ (parseNeg cs).2 ∧
      ((parseNeg cs).1 = [] ∨ (parseNeg cs).1 = ['-']) := by
  cases cs with
  | nil => simp [parseNeg]
  | cons c r =>
    by_cases hc : c = '-'
    · subst hc; simp [parseNeg]
    · simp [parseNeg, hc]

/-- Characterization of a successful `parseIntPart` run. -/
theorem parseIntPart_char (cs ip rest : List Char)
    (h : parseIntPart cs = some (ip, rest)) : cs = ip ++ rest ∧ IntPartShape ip := by
  cases cs with
  | nil => simp [parseIntPart] at h
  | cons c r =>
    by_cases hc0 : c = '0'
    · subst hc0
      simp [parseIntPart] at h
      obtain ⟨rfl, rfl⟩ := h
      exact ⟨rfl, Or.inl rfl⟩
    · by_cases hcd : c.isDigit
      · simp [parseIntPart, hc0, hcd, takeDigits] at h
        obtain ⟨rfl, rfl⟩ := h
        refine ⟨by simp [List.takeWhile_append_dropWhile], ?_⟩
        exact Or.inr ⟨c, _, rfl, hcd, hc0, fun d hd => List.mem_takeWhile_imp hd⟩
      · simp [parseIntPart, hc0, hcd] at h

/-- Characterization of `parseFracPart`. -/
theorem parseFracPart_char (cs : List Char) :
    cs = (parseFracPart cs).1 ++ (parseFracPart cs).2 ∧
      FracPartShape (parseFracPart cs).1 := by
  cases cs with
  | nil => simp [parseFracPart, FracPartShape]
  | cons c r =>
    by_cases hc : c = '.'
    · subst hc
      cases r with
      | nil => simp [parseFracPart, FracPartShape]
      | cons d r2 =>
        by_cases hd : d.isDigit
        · simp only [parseFracPart, hd, if_true, takeDigits, if_pos rfl]
          constructor
          · simp [List.takeWhile_append_dropWhile]
          · refine Or.inr ⟨_, rfl, ?_, fun x hx => List.mem_takeWhile_imp hx⟩
            simp [List.takeWhile, hd]
        · simp [parseFracPart, hd, FracPartShape]
    · simp [parseFracPart, hc, FracPartShape]

/-- Characterization of `parseExpPart`. -/
theorem parseExpPart_char (cs : List Char) :
    cs = (parseExpPart cs).1 ++ (parseExpPart cs).2 ∧
      ExpPartShape (parseExpPart cs).1 := by
  cases cs with
  | nil => simp [parseExpPart, ExpPartShape]
  | cons e r =>
    by_cases he : e = 'e' ∨ e = 'E'
    · cases r with
      | nil => simp [parseExpPart, he, ExpPartShape]
      | cons s r1 =>
        by_cases hs : s = '+' ∨ s = '-'
        · by_cases hd : (takeDigits r1).1 = []
          · simp [parseExpPart, he, hs, hd, ExpPartShape]
          · have hunf : parseExpPart (e :: s :: r1) =
                (e :: s :: (takeDigits r1).1, (takeDigits r1).2) := by
              simp only [parseExpPart]
              rw [if_pos he, if_pos hs, if_neg hd]
            rw [hunf]
            constructor
            · have hr1 : r1 = (takeDigits r1).1 ++ (takeDigits r1).2 :=
                (List.takeWhile_append_dropWhile _ _).symm
              conv_lhs => rw [hr1]
              simp
            · refine Or.inr ⟨e, [s], (takeDigits r1).1, by simp, he, ?_, hd,
                fun x hx => List.mem_takeWhile_imp hx⟩
              rcases hs with rfl | rfl
              · exact Or.inr (Or.inl rfl)
              · exact Or.inr (Or.inr rfl)
        · by_cases hd : (takeDigits (s :: r1)).1 = []
          · simp [parseExpPart, he, hs, hd, ExpPartShape]
          · have hunf : parseExpPart (e :: s :: r1) =
                (e :: (takeDigits (s :: r1)).1, (takeDigits (s :: r1)).2) := by
              simp only [parseExpPart]
              rw [if_pos he, if_neg hs, if_neg hd]
            rw [hunf]
            constructor
            · have hr1 : s :: r1 = (takeDigits (s :: r1)).1 ++ (takeDigits (s :: r1)).2 :=
                (List.takeWhile_append_dropWhile _ _).symm
              conv_lhs => rw [hr1]
              simp
            · exact Or.inr ⟨e, [], (takeDigits (s :: r1)).1, by simp, he, Or.inl rfl,
                hd, fun x hx => List.mem_takeWhile_imp hx⟩
    · simp [parseExpPart, he, ExpPartShape]

/-- Characterization of a successful `parseNumber` run: the input splits
into the lexeme and the rest, and the lexeme has valid shape. -/
theorem parseNumber_char (cs : List Char) (lex : String) (rest : List Char)
    (h : parseNumber cs = some (lex, rest)) :
    cs = lex.data ++ rest ∧ NumShape lex.data := by
  unfold parseNumber at h
  cases hip : parseIntPart (parseNeg cs).2 with
  | none => rw [hip] at h; simp at h
  | some q =>
    rw [hip] at h
    simp only [Option.some.injEq, Prod.mk.injEq] at h
    obtain ⟨hlex, hrest⟩ := h
    obtain ⟨hsplit, hnegshape⟩ := parseNeg_char cs
    obtain ⟨hip2, hipshape⟩ := parseIntPart_char _ _ _ hip
    obtain ⟨hfp2, hfpshape⟩ := parseFracPart_char q.2
    obtain ⟨hep2, hepshape⟩ := parseExpPart_char (parseFracPart q.2).2
    constructor
    · rw [← hlex, ← hrest]
      conv_lhs => rw [hsplit, hip2]
      conv_lhs => rw [hfp2]
      conv_lhs => rw [hep2]
      simp [List.append_assoc]
    · exact ⟨_, _, _, _, by rw [← hlex], hnegshape, hipshape, hfpshape, hepshape⟩

/-- A list whose head cannot extend a number has no digit head. -/
theorem notNumExt_notDigitHead (l : List Char) (h : NotNumExt l) :
    notDigitHead l := by
  cases l with
  | nil => trivial
  | cons c r => exact h.1

/-- Reconstruction: a lexeme of valid number shape parses back in front of
any non-extending tail. -/
theorem parseNumber_recon (lex tail : List Char) (h : NumShape lex)
    (ht : NotNumExt tail) : parseNumber (lex ++ tail) = some (⟨lex⟩, tail) := by
  obtain ⟨neg, ip, fp, ep, rfl, hneg, hip, hfp, hep⟩ := h
  have hephead : notDigitHead (ep ++ tail) := by
    rcases hep with rfl | ⟨e, sg, ds, rfl, he, -, -, -⟩
    · simpa using notNumExt_notDigitHead tail ht
    · rcases he with rfl | rfl <;> simp [notDigitHead]
  have hfphead : notDigitHead (fp ++ (ep ++ tail)) := by
    rcases hfp with rfl | ⟨ds, rfl, -, -⟩
    · simpa using hephead
    · simp [notDigitHead]
  have hI : parseIntPart (ip ++ (fp ++ (ep ++ tail))) =
      some (ip, fp ++ (ep ++ tail)) :=
    parseIntPart_recon ip _ hip hfphead
  have hF : parseFracPart (fp ++ (ep ++ tail)) = (fp, ep ++ tail) := by
    rcases hfp with rfl | ⟨ds, hfpe, hne, hds⟩
    · rw [List.nil_append]
      apply parseFracPart_none
      intro c r hcr
      rcases hep with rfl | ⟨e, sg, ds, rfl, he, -, -, -⟩
      · rw [List.nil_append] at hcr
        rw [hcr] at ht
        exact ht.2.1
      · simp only [List.cons_append] at hcr
        rcases he with rfl | rfl <;> (injection hcr with h1 h2; rw [← h1]; decide)
    · subst hfpe
      have hrec := parseFracPart_recon ds (ep ++ tail) hne hds hephead
      simpa [List.append_assoc] using hrec
  have hE : parseExpPart (ep ++ tail) = (ep, tail) := by
    rcases hep with rfl | ⟨e, sg, ds, rfl, he, hsg, hne, hds⟩
    · rw [List.nil_append]
      apply parseExpPart_none
      intro c r hcr
      rw [hcr] at ht
      exact ⟨ht.2.2.1, ht.2.2.2⟩
    · have hrec := parseExpPart_recon e sg ds tail he hsg hne hds
        (notNumExt_notDigitHead tail ht)
      simpa [List.append_assoc] using hrec
  have hip_head : ∃ c cs2, ip = c :: cs2 ∧ c.isDigit = true := by
    rcases hip with rfl | ⟨c, ds, rfl, hc, -, -⟩
    · exact ⟨'0', [], rfl, by decide⟩
    · exact ⟨c, ds, rfl, hc⟩
  obtain ⟨c0, cs0, hipeq, hc0d⟩ := hip_head
  rcases hneg with rfl | rfl
  · have hc0m : c0 ≠ '-' := by rintro rfl; exact absurd hc0d (by decide)
    have hPN : parseNeg ((([] : List Char) ++ ip ++ fp ++ ep) ++ tail) =
        ([], ip ++ (fp ++ (ep ++ tail))) := by
      simp only [List.nil_append, List.append_assoc]
      rw [hipeq]
      simp [parseNeg, hc0m]
    unfold parseNumber
    rw [hPN, hI]
    simp [hF, hE, List.append_assoc]
  · have hPN : parseNeg (((['-'] : List Char) ++ ip ++ fp ++ ep) ++ tail) =
        (['-'], ip ++ (fp ++ (ep ++ tail))) := by
      simp only [List.append_assoc, List.cons_append, List.nil_append]
      simp [parseNeg]
    unfold parseNumber
    rw [hPN, hI]
    simp [hF, hE, List.append_assoc]

/-- A valid lexeme re-parses in front of any non-extending tail. -/
theorem numOK_parse (lex : String) (hok : numOK lex = true) (tail : List Char)
    (ht : NotNumExt tail) : parseNumber (lex.data ++ tail) = some (lex, tail) := by
  have hrun : parseNumber lex.data = some (lex, []) := of_decide_eq_true hok
  obtain ⟨-, hshape⟩ := parseNumber_char _ _ _ hrun
  have hrec := parseNumber_recon lex.data tail hshape ht
  rwa [show (⟨lex.data⟩ : String) = lex from rfl] at hrec

/-- Every successful number parse produces a valid lexeme. -/
theorem parseNumber_wf (cs : List Char) (lex : String) (rest : List Char)
    (h : parseNumber cs = some (lex, rest)) : numOK lex = true := by
  obtain ⟨-, hshape⟩ := parseNumber_char _ _ _ h
  have hrec := parseNumber_recon lex.data [] hshape trivial
  rw [List.append_nil] at hrec
  rw [show (⟨lex.data⟩ : String) = lex from rfl] at hrec
  exact decide_eq_true hrec

/-- A valid number lexeme starts with a minus sign or a digit. -/
theorem numShape_head (lex : List Char) (h : NumShape lex) :
    ∃ c l, lex = c :: l ∧ (c = '-' ∨ c.isDigit = true) := by
  obtain ⟨neg, ip, fp, ep, rfl, hneg, hip, -, -⟩ := h
  rcases hneg with rfl | rfl
  · rcases hip with rfl | ⟨c, ds, rfl, hc, -, -⟩
    · exact ⟨'0', _, rfl, Or.inr (by decide)⟩
    · exact ⟨c, _, rfl, Or.inr hc⟩
  · exact ⟨'-', _, rfl, Or.inl rfl⟩

/-! ## JSON string encoding lemmas -/

/-- `hexVal` inverts `hexDig` below 16. -/
theorem hexVal_hexDig (n : Nat) (h : n < 16) : hexVal (hexDig n) = some n := by
  interval_cases n <;> decide

/-- Decoding inverts the character-level encoding of `JSON.stringify`:
the encoded characters followed by a closing quote parse back exactly. -/
theorem parseStringBody_enc (l rest : List Char) :
    parseStringBody (l.flatMap encChar ++ '"' :: rest) = some (l, rest) := by
  induction l with
  | nil =>
    rw [List.flatMap_nil, List.nil_append, parseStringBody.eq_def]
    simp
  | cons c l ih =>
    simp only [List.flatMap_cons, List.append_assoc]
    by_cases h1 : c = '"'
    · subst h1
      rw [show encChar '"' = ['\\', '"'] from rfl, List.cons_append,
        List.cons_append, List.nil_append, parseStringBody.eq_def]
      simp [ih]
    · by_cases h2 : c = '\\'
      · subst h2
        rw [show encChar '\\' = ['\\', '\\'] from rfl, List.cons_append,
          List.cons_append, List.nil_append, parseStringBody.eq_def]
        simp [ih]
      · by_cases h3 : c.toNat = 8
        · have hc : c = '\x08' := by
            have := congrArg Char.ofNat h3
            rwa [Char.ofNat_toNat] at this
          subst hc
          rw [show encChar '\x08' = ['\\', 'b'] from rfl, List.cons_append,
            List.cons_append, List.nil_append, parseStringBody.eq_def]
          simp [ih]
        · by_cases h4 : c.toNat = 9
          · have hc : c = '\t' := by
              have := congrArg Char.ofNat h4
              rwa [Char.ofNat_toNat] at this
            subst hc
            rw [show encChar '\t' = ['\\', 't'] from rfl, List.cons_append,
              List.cons_append, List.nil_append, parseStringBody.eq_def]
            simp [ih]
          · by_cases h5 : c.toNat = 10
            · have hc : c = '\n' := by
                have := congrArg Char.ofNat h5
                rwa [Char.ofNat_toNat] at this
              subst hc
              rw [show encChar '\n' = ['\\', 'n'] from rfl, List.cons_append,
                List.cons_append, List.nil_append, parseStringBody.eq_def]
              simp [ih]
            · by_cases h6 : c.toNat = 12
              · have hc : c = '\x0c' := by
                  have := congrArg Char.ofNat h6
                  rwa [Char.ofNat_toNat] at this
                subst hc
                rw [show encChar '\x0c' = ['\\', 'f'] from rfl, List.cons_append,
                  List.cons_append, List.nil_append, parseStringBody.eq_def]
                simp [ih]
              · by_cases h7 : c.toNat = 13
                · have hc : c = '\r' := by
                    have := congrArg Char.ofNat h7
                    rwa [Char.ofNat_toNat] at this
                  subst hc
                  rw [show encChar '\r' = ['\\', 'r'] from rfl, List.cons_append,
                    List.cons_append, List.nil_append, parseStringBody.eq_def]
                  simp [ih]
                · by_cases h8 : c.toNat < 32
                  · have henc : encChar c =
                        ['\\', 'u', '0', '0', hexDig (c.toNat / 16),
                          hexDig (c.toNat % 16)] := by
                      unfold encChar
                      rw [if_neg h1, if_neg h2, if_neg h3, if_neg h4, if_neg h5,
                        if_neg h6, if_neg h7, if_pos h8]
                    rw [henc]
                    simp only [List.cons_append, List.nil_append]
                    rw [parseStringBody.eq_def]
                    have hhi := hexVal_hexDig (c.toNat / 16) (by omega)
                    have hlo := hexVal_hexDig (c.toNat % 16) (by omega)
                    have h00 : hexVal '0' = some 0 := by decide
                    have hval : c.toNat / 16 * 16 + c.toNat % 16 = c.toNat := by
                      omega
                    simp [hhi, hlo, h00, ih, hval, Char.ofNat_toNat]
                  · have henc : encChar c = [c] := by
                      unfold encChar
                      rw [if_neg h1, if_neg h2, if_neg h3, if_neg h4, if_neg h5,
                        if_neg h6, if_neg h7, if_neg h8]
                    rw [henc]
                    simp only [List.cons_append, List.nil_append]
                    rw [parseStringBody.eq_def]
                    have h32 : 32 ≤ c.toNat := by omega
                    simp [h1, h2, h32, ih]

/-! ## Object assignment lemmas -/

/-- Assigning a fresh key appends a single binding. -/
theorem JObj.append_assign : ∀ (acc : JObj) (k : String) (v : JVal) (t : JObj),
    k ∉ acc.keys → (acc.assign k v).append t = acc.append (.ocons k v t)
  | .onil, _, _, _, _ => rfl
  | .ocons k2 v2 t2, k, v, t, h => by
    have hne : k2 ≠ k := fun e => h (by simp [JObj.keys, e])
    simp only [JObj.assign, JObj.append, hne, if_false]
    rw [JObj.append_assign t2 k v t fun hm => h (by simp [JObj.keys, hm])]

/-- Keys after an assignment. -/
theorem JObj.keys_assign : ∀ (o : JObj) (k : String) (v : JVal),
    (o.assign k v).keys = if k ∈ o.keys then o.keys else o.keys ++ [k]
  | .onil, k, v => by simp [JObj.assign, JObj.keys]
  | .ocons k2 v2 t, k, v => by
    by_cases hk : k2 = k
    · subst hk
      simp [JObj.assign, JObj.keys]
    · simp only [JObj.assign, hk, if_false, JObj.keys, JObj.keys_assign t k v]
      by_cases hm : k ∈ t.keys
      · simp [hm, Ne.symm hk]
      · simp [hm, Ne.symm hk]

/-- Assignment preserves well-formedness of the stored values. -/
theorem JObj.wf_assign : ∀ (acc : JObj) (k : String) (v : JVal),
    wfObj acc = true → wfVal v = true → wfObj (acc.assign k v) = true
  | .onil, k, v, _, h2 => by simp [JObj.assign, wfObj, h2]
  | .ocons k2 v2 t, k, v, h1, h2 => by
    simp only [wfObj, Bool.and_eq_true] at h1
    by_cases hk : k2 = k
    · simp [JObj.assign, hk, wfObj, h1.2, h2]
    · simp [JObj.assign, hk, wfObj, h1.1, JObj.wf_assign t k v h1.2 h2]

/-- Assignment preserves distinctness of keys. -/
theorem JObj.nodup_assign (acc : JObj) (k : String) (v : JVal)
    (h : acc.keys.Nodup) : (acc.assign k v).keys.Nodup := by
  rw [JObj.keys_assign]
  by_cases hm : k ∈ acc.keys
  · simpa [hm] using h
  · rw [if_neg hm]
    rw [List.nodup_append]
    refine ⟨h, List.nodup_singleton k, ?_⟩
    intro a ha hb
    rw [List.mem_singleton] at hb
    subst hb
    exact hm ha

/-! ## Encoding head facts -/

/-- Digits are not JSON whitespace. -/
theorem digit_not_ws (c : Char) (h : c.isDigit = true) : jsonWs c = false := by
  have h1 : c ≠ ' ' := by rintro rfl; exact absurd h (by decide)
  have h2 : c ≠ '\t' := by rintro rfl; exact absurd h (by decide)
  have h3 : c ≠ '\n' := by rintro rfl; exact absurd h (by decide)
  have h4 : c ≠ '\r' := by rintro rfl; exact absurd h (by decide)
  simp [jsonWs, h1, h2, h3, h4]

/-- `skipWs` keeps a list whose head is not whitespace. -/
theorem skipWs_cons (c : Char) (l : List Char) (h : jsonWs c = false) :
    skipWs (c :: l) = c :: l := by
  simp [skipWs, List.dropWhile, h]

/-- The head of a number lexeme fails every non-number dispatch test. -/
theorem digit_head_facts (c : Char) (h : c = '-' ∨ c.isDigit = true) :
    c ≠ 'n' ∧ c ≠ 't' ∧ c ≠ 'f' ∧ c ≠ '"' ∧ c ≠ '[' ∧ c ≠ '{' := by
  rcases h with rfl | hd
  · exact ⟨by decide, by decide, by decide, by decide, by decide, by decide⟩
  · refine ⟨?_, ?_, ?_, ?_, ?_, ?_⟩ <;> (rintro rfl; exact absurd hd (by decide))

/-- Separators that may follow a serialized value cannot extend a number. -/
theorem okRest_notNumExt (rest : List Char) (h : OkRest rest) : NotNumExt rest := by
  cases rest with
  | nil => trivial
  | cons c r =>
    rcases h with rfl | rfl | rfl <;>
      exact ⟨by decide, by decide, by decide, by decide⟩

/-- The first character of a well-formed value's encoding: never
whitespace and never a closing bracket. -/
theorem jsonEncode_head (v : JVal) (h : wfVal v = true) :
    ∃ c l, jsonEncode v = c :: l ∧ jsonWs c = false ∧ c ≠ ']' ∧ c ≠ '}' ∧
      c ≠ ',' := by
  cases v with
  | vnull => exact ⟨'n', _, rfl, by decide, by decide, by decide, by decide⟩
  | vbool b =>
    cases b with
    | false => exact ⟨'f', _, rfl, by decide, by decide, by decide, by decide⟩
    | true => exact ⟨'t', _, rfl, by decide, by decide, by decide, by decide⟩
  | vnum lex =>
    have hok : numOK lex = true := by simpa [wfVal] using h
    have hrun : parseNumber lex.data = some (lex, []) := of_decide_eq_true hok
    obtain ⟨-, hshape⟩ := parseNumber_char _ _ _ hrun
    obtain ⟨c, l2, hl, hc⟩ := numShape_head _ hshape
    refine ⟨c, l2, by simpa [jsonEncode] using hl, ?_, ?_, ?_, ?_⟩
    · rcases hc with rfl | hd
      · decide
      · exact digit_not_ws c hd
    · rcases hc with rfl | hd
      · decide
      · rintro rfl; exact absurd hd (by decide)
    · rcases hc with rfl | hd
      · decide
      · rintro rfl; exact absurd hd (by decide)
    · rcases hc with rfl | hd
      · decide
      · rintro rfl; exact absurd hd (by decide)
  | vstr s => exact ⟨'"', _, rfl, by decide, by decide, by decide, by decide⟩
  | varr a =>
    cases a with
    | anil => exact ⟨'[', _, rfl, by decide, by decide, by decide, by decide⟩
    | acons v t => exact ⟨'[', _, rfl, by decide, by decide, by decide, by decide⟩
  | vobj o =>
    cases o with
    | onil => exact ⟨'{', _, rfl, by decide, by decide, by decide, by decide⟩
    | ocons k v t => exact ⟨'{', _, rfl, by decide, by decide, by decide, by decide⟩

/-- Appending the empty object on the right. -/
theorem JObj.append_onil : ∀ (o : JObj), o.append .onil = o
  | .onil => rfl
  | .ocons k v t => congrArg (JObj.ocons k v) (JObj.append_onil t)

/-! ## Parsing inverts encoding -/

/-- Dispatch of the value parser on an opening bracket. -/
theorem parseValue_arr (f : Nat) (R : List Char) :
    parseValue (f + 1) ('[' :: R) =
      (match skipWs R with
      | [] => none
      | c1 :: r1 =>
        if c1 = ']' then some (JVal.varr .anil, r1)
        else (parseElems f (c1 :: r1)).map fun p => (JVal.varr p.1, p.2)) := by
  simp only [parseValue]
  rw [skipWs_cons _ _ (by decide)]
  dsimp only
  rfl

/-- Dispatch of the value parser on an opening brace. -/
theorem parseValue_obj (f : Nat) (R : List Char) :
    parseValue (f + 1) ('{' :: R) =
      (match skipWs R with
      | [] => none
      | c1 :: r1 =>
        if c1 = '}' then some (JVal.vobj .onil, r1)
        else (parseMembers f (c1 :: r1) .onil).map fun p =>
          (JVal.vobj p.1, p.2)) := by
  simp only [parseValue]
  rw [skipWs_cons _ _ (by decide)]
  dsimp only
  rfl

mutual
/-- A well-formed value's serialization parses back to the value, leaving
the tail untouched, for any sufficient fuel. -/
theorem encInv_val : ∀ (v : JVal), wfVal v = true → ∀ (f : Nat) (rest : List Char),
    2 * (jsonEncode v).length < f → OkRest rest →
    parseValue f (jsonEncode v ++ rest) = some (v, rest)
  | v, _, 0, _, hf, _ => absurd hf (by omega)
  | .vnull, _, f + 1, rest, _, _ => by
    rw [show jsonEncode .vnull ++ rest = 'n' :: 'u' :: 'l' :: 'l' :: rest from rfl]
    simp [parseValue, skipWs_cons _ _ (by decide : jsonWs 'n' = false)]
  | .vbool true, _, f + 1, rest, _, _ => by
    rw [show jsonEncode (.vbool true) ++ rest =
      't' :: 'r' :: 'u' :: 'e' :: rest from rfl]
    simp [parseValue, skipWs_cons _ _ (by decide : jsonWs 't' = false)]
  | .vbool false, _, f + 1, rest, _, _ => by
    rw [show jsonEncode (.vbool false) ++ rest =
      'f' :: 'a' :: 'l' :: 's' :: 'e' :: rest from rfl]
    simp [parseValue, skipWs_cons _ _ (by decide : jsonWs 'f' = false)]
  | .vnum lex, hwf, f + 1, rest, _, hr => by
    have hok : numOK lex = true := by simpa [wfVal] using hwf
    have hrun : parseNumber lex.data = some (lex, []) := of_decide_eq_true hok
    obtain ⟨-, hshape⟩ := parseNumber_char _ _ _ hrun
    obtain ⟨c, l2, hl, hc⟩ := numShape_head _ hshape
    obtain ⟨hn1, hn2, hn3, hn4, hn5, hn6⟩ := digit_head_facts c hc
    have hws : jsonWs c = false := by
      rcases hc with rfl | hd
      · decide
      · exact digit_not_ws c hd
    have hnum : parseNumber (lex.data ++ rest) = some (lex, rest) :=
      numOK_parse lex hok rest (okRest_notNumExt rest hr)
    rw [show jsonEncode (.vnum lex) = lex.data from rfl, hl]
    simp only [List.cons_append, parseValue]
    rw [skipWs_cons _ _ hws]
    dsimp only
    rw [if_neg hn1, if_neg hn2, if_neg hn3, if_neg hn4, if_neg hn5, if_neg hn6]
    rw [← List.cons_append, ← hl, hnum]
    rfl
  | .vstr s, _, f + 1, rest, _, _ => by
    rw [show jsonEncode (.vstr s) ++ rest =
      '"' :: (s.data.flatMap encChar ++ '"' :: rest) from by
        simp [jsonEncode, encString]]
    simp only [parseValue]
    rw [skipWs_cons _ _ (by decide)]
    simp [parseStringBody_enc]
  | .varr .anil, _, f + 1, rest, _, _ => by
    rw [show jsonEncode (.varr .anil) ++ rest = '[' :: ']' :: rest from rfl]
    rw [parseValue_arr]
    rw [skipWs_cons _ _ (by decide : jsonWs ']' = false)]
    simp
  | .varr (.acons v t), hwf, f + 1, rest, hf, hr => by
    have hwfa : wfArr (.acons v t) = true := by simpa [wfVal] using hwf
    have hwv : wfVal v = true := by
      have h2 := hwfa
      simp only [wfArr, Bool.and_eq_true] at h2
      exact h2.1
    have hlen : (jsonEncode (.varr (.acons v t))).length =
        (encElems (.acons v t)).length + 2 := by
      simp [jsonEncode, encElems]
      omega
    obtain ⟨c, l2, hveq, hws, hne1, hne2, hne3⟩ := jsonEncode_head v hwv
    have hhd : encElems (.acons v t) ++ ']' :: rest =
        c :: (l2 ++ (encArrTail t ++ ']' :: rest)) := by
      simp [encElems, hveq]
    rw [show jsonEncode (.varr (.acons v t)) ++ rest =
      '[' :: (encElems (.acons v t) ++ ']' :: rest) from by
        simp [jsonEncode, encElems]]
    rw [parseValue_arr]
    rw [hhd, skipWs_cons _ _ hws]
    dsimp only
    rw [if_neg hne1, ← hhd]
    rw [encInv_elems (.acons v t) hwfa (by simp) f rest (by omega) hr]
    rfl
  | .vobj .onil, _, f + 1, rest, _, _ => by
    rw [show jsonEncode (.vobj .onil) ++ rest = '{' :: '}' :: rest from rfl]
    rw [parseValue_obj]
    rw [skipWs_cons _ _ (by decide : jsonWs '}' = false)]
    simp
  | .vobj (.ocons k v t), hwf, f + 1, rest, hf, hr => by
    have hwfsplit : (decide (JObj.ocons k v t).keys.Nodup &&
        wfObj (.ocons k v t)) = true := by simpa [wfVal] using hwf
    rw [Bool.and_eq_true] at hwfsplit
    have hnodup : (JObj.ocons k v t).keys.Nodup := of_decide_eq_true hwfsplit.1
    have hwfo : wfObj (.ocons k v t) = true := hwfsplit.2
    have hlen : (jsonEncode (.vobj (.ocons k v t))).length =
        (encMembers (.ocons k v t)).length + 2 := by
      simp [jsonEncode, encMembers]
      omega
    have hhd : encMembers (.ocons k v t) ++ '}' :: rest =
        '"' :: (k.data.flatMap encChar ++
          '"' :: (':' :: (jsonEncode v ++ (encObjTail t ++ '}' :: rest)))) := by
      simp [encMembers, encString]
    rw [show jsonEncode (.vobj (.ocons k v t)) ++ rest =
      '{' :: (encMembers (.ocons k v t) ++ '}' :: rest) from by
        simp [jsonEncode, encMembers]]
    rw [parseValue_obj]
    rw [hhd, skipWs_cons _ _ (by decide)]
    dsimp only
    rw [if_neg (by decide : ('"' : Char) ≠ '}'), ← hhd]
    rw [encInv_membs (.ocons k v t) .onil hwfo (by simp)
      (by simpa [JObj.keys] using hnodup) f rest (by omega) hr]
    rfl

/-- The serialized elements of a non-empty array parse back. -/
theorem encInv_elems : ∀ (a : JArr), wfArr a = true → a ≠ .anil →
    ∀ (f : Nat) (rest : List Char), 2 * (encElems a).length + 1 < f →
    OkRest rest → parseElems f (encElems a ++ ']' :: rest) = some (a, rest)
  | .anil, _, hne, _, _, _, _ => absurd rfl hne
  | a, _, _, 0, _, hf, _ => absurd hf (by omega)
  | .acons v t, hwf, _, f + 1, rest, hf, hr => by
    have hwv : wfVal v = true ∧ wfArr t = true := by
      simpa [wfArr, Bool.and_eq_true] using hwf
    have hrw : encElems (.acons v t) ++ ']' :: rest =
        jsonEncode v ++ (encArrTail t ++ ']' :: rest) := by
      simp [encElems]
    have hlen : (encElems (.acons v t)).length =
        (jsonEncode v).length + (encArrTail t).length := by
      simp [encElems]
    have hr2 : OkRest (encArrTail t ++ ']' :: rest) := by
      cases t with
      | anil => exact Or.inr (Or.inl rfl)
      | acons v2 t2 => exact Or.inl rfl
    simp only [parseElems]
    rw [hrw, encInv_val v hwv.1 f _ (by omega) hr2]
    dsimp only
    cases t with
    | anil =>
      rw [show encArrTail .anil ++ ']' :: rest = ']' :: rest from rfl]
      rw [skipWs_cons _ _ (by decide)]
      dsimp only
      rw [if_neg (by decide : (']' : Char) ≠ ','), if_pos rfl]
    | acons v2 t2 =>
      have htl : (encArrTail (.acons v2 t2)).length =
          (encElems (.acons v2 t2)).length + 1 := by
        simp [encArrTail, encElems]
      rw [show encArrTail (.acons v2 t2) ++ ']' :: rest =
        ',' :: (encElems (.acons v2 t2) ++ ']' :: rest) from by
          simp [encArrTail, encElems]]
      rw [skipWs_cons _ _ (by decide)]
      dsimp only
      rw [if_pos rfl]
      rw [encInv_elems (.acons v2 t2) hwv.2 (by simp) f rest (by omega) hr]

/-- The serialized members of a non-empty object parse back, assigned
into an accumulator whose keys are disjoint from theirs. -/
theorem encInv_membs : ∀ (o : JObj) (acc : JObj), wfObj o = true → o ≠ .onil →
    (acc.keys ++ o.keys).Nodup → ∀ (f : Nat) (rest : List Char),
    2 * (encMembers o).length + 1 < f → OkRest rest →
    parseMembers f (encMembers o ++ '}' :: rest) acc = some (acc.append o, rest)
  | .onil, _, _, hne, _, _, _, _, _ => absurd rfl hne
  | _, _, _, _, _, 0, _, hf, _ => absurd hf (by omega)
  | .ocons k v t, acc, hwf, _, hnodup, f + 1, rest, hf, hr => by
    have hwv : wfVal v = true ∧ wfObj t = true := by
      simpa [wfObj, Bool.and_eq_true] using hwf
    have hkacc : k ∉ acc.keys := by
      have h2 := hnodup
      rw [List.nodup_append] at h2
      exact fun hm => h2.2.2 hm (by simp [JObj.keys])
    have hrw : encMembers (.ocons k v t) ++ '}' :: rest =
        '"' :: (k.data.flatMap encChar ++
          '"' :: (':' :: (jsonEncode v ++ (encObjTail t ++ '}' :: rest)))) := by
      simp [encMembers, encString]
    have hlen : (encMembers (.ocons k v t)).length =
        (encString k).length + 1 + (jsonEncode v).length +
          (encObjTail t).length := by
      simp [encMembers]
      omega
    have hr2 : OkRest (encObjTail t ++ '}' :: rest) := by
      cases t with
      | onil => exact Or.inr (Or.inr rfl)
      | ocons k2 v2 t2 => exact Or.inl rfl
    simp only [parseMembers]
    rw [hrw, skipWs_cons _ _ (by decide)]
    dsimp only
    rw [parseStringBody_enc]
    dsimp only
    rw [skipWs_cons _ _ (by decide : jsonWs ':' = false)]
    dsimp only
    rw [show (⟨k.data⟩ : String) = k from rfl]
    have hval : (encString k).length = (k.data.flatMap encChar).length + 2 := by
      simp [encString]
    rw [encInv_val v hwv.1 f _ (by omega) hr2]
    dsimp only
    cases t with
    | onil =>
      have hfin : acc.assign k v = acc.append (.ocons k v .onil) := by
        rw [← JObj.append_onil (acc.assign k v),
          JObj.append_assign acc k v .onil hkacc]
      rw [hfin]
      simp [encObjTail, skipWs, List.dropWhile, jsonWs]
    | ocons k2 v2 t2 =>
      have htl : (encObjTail (.ocons k2 v2 t2)).length =
          (encMembers (.ocons k2 v2 t2)).length + 1 := by
        simp [encObjTail, encMembers]
      rw [show encObjTail (.ocons k2 v2 t2) ++ '}' :: rest =
        ',' :: (encMembers (.ocons k2 v2 t2) ++ '}' :: rest) from by
          simp [encObjTail, encMembers]]
      rw [skipWs_cons _ _ (by decide)]
      dsimp only
      rw [if_pos rfl]
      have hkeys : ((acc.assign k v).keys ++ (JObj.ocons k2 v2 t2).keys).Nodup := by
        rw [JObj.keys_assign, if_neg hkacc]
        have hre : acc.keys ++ [k] ++ (JObj.ocons k2 v2 t2).keys =
            acc.keys ++ (JObj.ocons k v (JObj.ocons k2 v2 t2)).keys := by
          simp [JObj.keys]
        rw [hre]
        exact hnodup
      rw [encInv_membs (.ocons k2 v2 t2) (acc.assign k v) hwv.2 (by simp)
        hkeys f rest (by omega) hr]
      rw [JObj.append_assign acc k v (.ocons k2 v2 t2) hkacc]
      simp
end

/-- Everything the JSON parser produces is well-formed: number lexemes
follow the grammar and object keys are distinct. -/
theorem parse_wf : ∀ f : Nat,
    (∀ cs v rest, parseValue f cs = some (v, rest) → wfVal v = true) ∧
    (∀ cs a rest, parseElems f cs = some (a, rest) → wfArr a = true) ∧
    (∀ cs acc o rest, wfObj acc = true → acc.keys.Nodup →
      parseMembers f cs acc = some (o, rest) →
      wfObj o = true ∧ o.keys.Nodup) := by
  intro f
  induction f with
  | zero =>
    refine ⟨?_, ?_, ?_⟩
    · intro cs v rest h
      simp [parseValue] at h
    · intro cs a rest h
      simp [parseElems] at h
    · intro cs acc o rest _ _ h
      simp [parseMembers] at h
  | succ f ih =>
    obtain ⟨ihv, ihe, ihm⟩ := ih
    refine ⟨?_, ?_, ?_⟩
    · intro cs v rest h
      simp only [parseValue] at h
      cases hsk : skipWs cs with
      | nil => rw [hsk] at h; simp at h
      | cons c r =>
        rw [hsk] at h
        dsimp only at h
        by_cases h1 : c = 'n'
        · rw [if_pos h1] at h
          split at h
          · simp at h
            rw [← h.1]
            rfl
          · simp at h
        · rw [if_neg h1] at h
          by_cases h2 : c = 't'
          · rw [if_pos h2] at h
            split at h
            · simp at h
              rw [← h.1]
              rfl
            · simp at h
          · rw [if_neg h2] at h
            by_cases h3 : c = 'f'
            · rw [if_pos h3] at h
              split at h
              · simp at h
                rw [← h.1]
                rfl
              · simp at h
            · rw [if_neg h3] at h
              by_cases h4 : c = '"'
              · rw [if_pos h4] at h
                cases hsb : parseStringBody r with
                | none => rw [hsb] at h; simp at h
                | some p =>
                  rw [hsb] at h
                  simp at h
                  rw [← h.1]
                  rfl
              · rw [if_neg h4] at h
                by_cases h5 : c = '['
                · rw [if_pos h5] at h
                  cases hsk2 : skipWs r with
                  | nil => rw [hsk2] at h; simp at h
                  | cons c1 r1 =>
                    rw [hsk2] at h
                    dsimp only at h
                    by_cases h6 : c1 = ']'
                    · rw [if_pos h6] at h
                      simp at h
                      rw [← h.1]
                      rfl
                    · rw [if_neg h6] at h
                      cases hpe : parseElems f (c1 :: r1) with
                      | none => rw [hpe] at h; simp at h
                      | some p =>
                        rw [hpe] at h
                        simp at h
                        rw [← h.1]
                        exact ihe _ _ _ (by rw [hpe])
                · rw [if_neg h5] at h
                  by_cases h7 : c = '{'
                  · rw [if_pos h7] at h
                    cases hsk2 : skipWs r with
                    | nil => rw [hsk2] at h; simp at h
                    | cons c1 r1 =>
                      rw [hsk2] at h
                      dsimp only at h
                      by_cases h8 : c1 = '}'
                      · rw [if_pos h8] at h
                        simp at h
                        rw [← h.1]
                        rfl
                      · rw [if_neg h8] at h
                        cases hpm : parseMembers f (c1 :: r1) .onil with
                        | none => rw [hpm] at h; simp at h
                        | some p =>
                          rw [hpm] at h
                          simp at h
                          rw [← h.1]
                          obtain ⟨hwo, hnd⟩ := ihm (c1 :: r1) JObj.onil p.1 p.2
                            (by rfl) List.nodup_nil (by rw [hpm])
                          simp [wfVal, hwo, hnd]
                  · rw [if_neg h7] at h
                    cases hpn : parseNumber (c :: r) with
                    | none => rw [hpn] at h; simp at h
                    | some p =>
                      rw [hpn] at h
                      simp at h
                      rw [← h.1]
                      simpa [wfVal] using parseNumber_wf _ _ _ (by rw [hpn])
    · intro cs a rest h
      simp only [parseElems] at h
      cases hpv : parseValue f cs with
      | none => rw [hpv] at h; simp at h
      | some q =>
        obtain ⟨v0, r0⟩ := q
        rw [hpv] at h
        dsimp only at h
        have hwv0 : wfVal v0 = true := ihv _ _ _ hpv
        cases hsk : skipWs r0 with
        | nil => rw [hsk] at h; simp at h
        | cons c r1 =>
          rw [hsk] at h
          dsimp only at h
          by_cases h1 : c = ','
          · rw [if_pos h1] at h
            cases hpe : parseElems f r1 with
            | none => rw [hpe] at h; simp at h
            | some p =>
              rw [hpe] at h
              simp at h
              rw [← h.1]
              simp [wfArr, hwv0]
              exact ihe _ _ _ (by rw [hpe])
          · rw [if_neg h1] at h
            by_cases h2 : c = ']'
            · rw [if_pos h2] at h
              simp at h
              rw [← h.1]
              simp [wfArr, hwv0]
            · rw [if_neg h2] at h
              simp at h
    · intro cs acc o rest hacc hnd h
      simp only [parseMembers] at h
      cases hsk : skipWs cs with
      | nil => rw [hsk] at h; simp at h
      | cons c r =>
        rw [hsk] at h
        dsimp only at h
        by_cases h1 : c = '"'
        · rw [if_pos h1] at h
          cases hsb : parseStringBody r with
          | none => rw [hsb] at h; simp at h
          | some kp =>
            rw [hsb] at h
            dsimp only at h
            cases hsk2 : skipWs kp.2 with
            | nil => rw [hsk2] at h; simp at h
            | cons c1 r2 =>
              rw [hsk2] at h
              dsimp only at h
              by_cases h2 : c1 = ':'
              · rw [if_pos h2] at h
                cases hpv : parseValue f r2 with
                | none => rw [hpv] at h; simp at h
                | some q =>
                  obtain ⟨v0, r3⟩ := q
                  rw [hpv] at h
                  dsimp only at h
                  have hwv0 : wfVal v0 = true := ihv _ _ _ hpv
                  have hacc2 : wfObj (acc.assign ⟨kp.1⟩ v0) = true :=
                    JObj.wf_assign acc _ v0 hacc hwv0
                  have hnd2 : (acc.assign ⟨kp.1⟩ v0).keys.Nodup :=
                    JObj.nodup_assign acc _ v0 hnd
                  cases hsk3 : skipWs r3 with
                  | nil => rw [hsk3] at h; simp at h
                  | cons c2 r4 =>
                    rw [hsk3] at h
                    dsimp only at h
                    by_cases h3 : c2 = ','
                    · rw [if_pos h3] at h
                      exact ihm _ _ _ _ hacc2 hnd2 h
                    · rw [if_neg h3] at h
                      by_cases h4 : c2 = '}'
                      · rw [if_pos h4] at h
                        simp at h
                        rw [← h.1]
                        exact ⟨hacc2, hnd2⟩
                      · rw [if_neg h4] at h
                        simp at h
              · rw [if_neg h2] at h
                simp at h
        · rw [if_neg h1] at h
          simp at h

/-! ## The round-trip claim -/

/-- C8 counterexample: the token `a=json:"json:x"` stores the string value
`json:x`, but re-serializing it as `a=json:x` does not parse back — the
`json:` tag is re-interpreted and the remainder is invalid JSON — so the
string-value round-trip fails as stated. -/
theorem roundtrip_cex :
    parseParameters ["a=json:\"json:x\""] = .ok [("a", .vstr "json:x")] ∧
    "a" ++ "=" ++ stringifyValue (.vstr "json:x") = "a=json:x" ∧
    parseParameters ["a=json:x"] = .error .invalidJson :=
  ⟨by decide, by decide, by decide⟩

/-- C8 (amended): re-serializing a stored value as `name=stringify(value)`
round-trips for boolean values and for string values that do not carry the
`json:` tag (no stored string is ever the literal `true` or `false`); and
every value `JSON.parse` produces round-trips through `JSON.stringify`
followed by `JSON.parse`. -/
theorem parse_stringify_roundtrip :
    (∀ name s : String, name.data ≠ [] → '=' ∉ name.data → name ≠ "@" →
      _startsWith s "json:" = false → s ≠ "true" → s ≠ "false" →
      parseParameters [name ++ "=" ++ stringifyValue (.vstr s)] =
        .ok [(name, .vstr s)]) ∧
    (∀ (name : String) (b : Bool), name.data ≠ [] → '=' ∉ name.data →
      name ≠ "@" →
      parseParameters [name ++ "=" ++ stringifyValue (.vbool b)] =
        .ok [(name, .vbool b)]) ∧
    (∀ (s : String) (v : JVal), jsonParse s = some v →
      jsonParse (jsonStringify v) = some v) := by
  refine ⟨?_, ?_, ?_⟩
  · intro name s h1 h2 h3 hjs ht hf
    rw [show stringifyValue (.vstr s) = s from rfl]
    rw [parseParameters_single name s h1 h2 h3]
    have hcv : coerceValue s = .ok (.vstr s) := by
      unfold coerceValue jsonStep
      rw [hjs]
      simp [coerceBool, ht, hf]
    rw [hcv]
    rfl
  · intro name b h1 h2 h3
    cases b with
    | false =>
      rw [show stringifyValue (.vbool false) = "false" from rfl]
      rw [parseParameters_single name "false" h1 h2 h3]
      rw [show coerceValue "false" = .ok (.vbool false) from by decide]
      rfl
    | true =>
      rw [show stringifyValue (.vbool true) = "true" from rfl]
      rw [parseParameters_single name "true" h1 h2 h3]
      rw [show coerceValue "true" = .ok (.vbool true) from by decide]
      rfl
  · intro s v h
    have hwf : wfVal v = true := by
      unfold jsonParse at h
      cases hp : parseValue (2 * s.data.length + 2) s.data with
      | none => rw [hp] at h; simp at h
      | some p =>
        obtain ⟨v0, r0⟩ := p
        rw [hp] at h
        dsimp only at h
        by_cases hr : skipWs r0 = []
        · rw [if_pos hr] at h
          simp at h
          rw [← h]
          exact (parse_wf _).1 _ _ _ hp
        · rw [if_neg hr] at h
          simp at h
    unfold jsonParse jsonStringify
    rw [show (String.mk (jsonEncode v)).data = jsonEncode v from rfl]
    have henc := encInv_val v hwf (2 * (jsonEncode v).length + 2) []
      (by omega) trivial
    rw [List.append_nil] at henc
    rw [henc]
    simp [skipWs]

/-- Witness for C8 (amended): the token `a=x` round-trips, and the parsed
object `{"a":1}` round-trips through stringify/parse. -/
theorem parse_stringify_roundtrip_witness :
    parseParameters ["a" ++ "=" ++ stringifyValue (.vstr "x")] =
      .ok [("a", .vstr "x")] ∧
    jsonParse (jsonStringify (.vobj (.ocons "a" (.vnum "1") .onil))) =
      some (.vobj (.ocons "a" (.vnum "1") .onil)) := by
  constructor
  · exact parse_stringify_roundtrip.1 "a" "x" (by decide) (by decide) (by decide)
      (by decide) (by decide) (by decide)
  · exact parse_stringify_roundtrip.2.2 "\x7b\"a\":1\x7d" _ (by decide)

end XoCli
